import Mathlib

/-!
Verification of the task-hierarchy core of the task-management-system
repository: cycle detection, ancestor/descendant traversal, and the
status-propagation engine (`src/unnamed/part_001`).

Modelling conventions:
* Task ids are `Int` (JS numbers used as integer ids); `parentId` is
  `Option Int` (`none` models `null`/absent).  JS truthiness tests on ids
  (`if (taskId)`, `if (parent.parentId)`) are modelled exactly: `none` and
  `some 0` are falsy.
* `Task.status` is a `String`; the opaque display attributes (`header`,
  `type`, `reviewer`, `target`, `limit`) are never read by the core and are
  omitted from the record.
* The source helpers `getTaskAncestors`, `getTaskDescendants`,
  `propagateUpwardsComplete` and `propagateUpwardsDone` recurse along
  parent/child links with no structural termination guarantee (only
  `wouldCreateCircularDependency` carries a visited set), so every
  potentially non-terminating recursion is given an explicit fuel
  parameter and returns `Option`: `none` means the recursion exceeded the
  given fuel.  A run of the JS code terminates with value `v` iff the
  fuelled model returns `some v` for every sufficiently large fuel, and
  diverges iff the model returns `none` for all fuel.
* The JS `Map` built from the task array assigns by `set`, so a later
  array entry overwrites an earlier one with the same id: `lookupTask`
  returns the last matching task.  The `Map` of queued statuses built from
  the update list likewise takes the last entry (`lastStatus`), while
  `updates.find(...)` takes the first (`findUpd`); both are modelled
  separately.  The JS idiom `x || y` on status strings (empty string
  falsy) is modelled by `orStored`.
-/

namespace TMS

/-- A task record as seen by the hierarchy core: id, status string and
optional parent id.  Uninterpreted display attributes are omitted. -/
structure Task where
  id : Int
  status : String
  parentId : Option Int
deriving DecidableEq, Repr

/-- One `{id, status}` update intent produced by the propagator. -/
structure StatusUpdate where
  id : Int
  status : String
deriving DecidableEq, Repr

/-- `taskMap.get i`: the JS map is built by `set` over the array in order,
so the LAST task with a given id wins. -/
def lookupTask : List Task → Int → Option Task
  | [], _ => none
  | t :: ts, i =>
    match lookupTask ts i with
    | some r => some r
    | none => if t.id = i then some t else none

/-- `taskMap.get(a)?.parentId ?? null`: follow one parent link. -/
def parentLink (tasks : List Task) (a : Int) : Option Int :=
  (lookupTask tasks a).bind Task.parentId

/-- One step of the parent relation: task `a` (as found by the id map)
has `parentId = b`. -/
def Step (tasks : List Task) (a b : Int) : Prop :=
  parentLink tasks a = some b

/-- Acyclicity of a snapshot: following `parentId` links transitively
never returns to the starting id. -/
def Acyclic (tasks : List Task) : Prop :=
  ∀ a : Int, ¬ Relation.TransGen (Step tasks) a a

/-- JS truthiness of an optional id: `null` and `0` are falsy. -/
def isTruthyId : Option Int → Bool
  | some p => decide (p ≠ 0)
  | none => false

/-- The `while` loop of `wouldCreateCircularDependency`: walk the ancestor
chain from `currentId` looking for `target`, with a visited set guarding
against pre-existing cycles. -/
def circGo (tasks : List Task) (target : Int) : Nat → Option Int → Finset Int → Option Bool
  | _, none, _ => some false
  | 0, some _, _ => none
  | fuel + 1, some c, visited =>
    if c = target then some true
    else if c ∈ visited then some false
    else circGo tasks target fuel (parentLink tasks c) (insert c visited)

/-- `wouldCreateCircularDependency(tasks, taskId, parentId)`: `false` when
either id is absent/falsy, `true` on self-parenting, otherwise walk the
ancestor chain of the proposed parent looking for `taskId`. -/
def wouldCreateCircularDependency (fuel : Nat) (tasks : List Task)
    (taskId parentId : Option Int) : Option Bool :=
  match taskId, parentId with
  | some x, some p =>
    if p = 0 ∨ x = 0 then some false
    else if x = p then some true
    else circGo tasks x fuel (some p) ∅
  | _, _ => some false

/-- The `while` loop of `getTaskAncestors`: collect the chain of parent
ids (nearest first) until a `null` link; no visited set in the source. -/
def ancGo (tasks : List Task) : Nat → Option Int → Option (List Int)
  | _, none => some []
  | 0, some _ => none
  | fuel + 1, some c => (ancGo tasks fuel (parentLink tasks c)).map (fun l => c :: l)

/-- `getTaskAncestors(tasks, taskId)`. -/
def getTaskAncestors (fuel : Nat) (tasks : List Task) (taskId : Int) : Option (List Int) :=
  ancGo tasks fuel (parentLink tasks taskId)

/-- `getTaskChildren(tasks, taskId)`: tasks whose `parentId === taskId`. -/
def getTaskChildren (tasks : List Task) (taskId : Int) : List Task :=
  tasks.filter (fun t => decide (t.parentId = some taskId))

/-- `getTaskDescendants(tasks, taskId)`: pre-order list of descendant ids
(each child followed by its own descendants); the source recursion has no
cycle guard, so fuel bounds the recursion depth. -/
def getTaskDescendants (tasks : List Task) : Nat → Int → Option (List Int)
  | 0, _ => none
  | fuel + 1, taskId =>
    (getTaskChildren tasks taskId).foldr
      (fun c acc => do
        let d ← getTaskDescendants tasks fuel c.id
        let rest ← acc
        pure (c.id :: (d ++ rest)))
      (some [])

/-- `getInvalidParentIds(tasks, taskId)`: `[]` for a falsy id, else the
task itself followed by its descendants. -/
def getInvalidParentIds (fuel : Nat) (tasks : List Task) (taskId : Option Int) :
    Option (List Int) :=
  match taskId with
  | none => some []
  | some x =>
    if x = 0 then some []
    else (getTaskDescendants tasks fuel x).map (fun d => x :: d)

/-- The queued-status map built from the update list (`new Map(updates.map ...)`);
later entries overwrite earlier ones. -/
def lastStatus : List StatusUpdate → Int → Option String
  | [], _ => none
  | u :: us, i =>
    match lastStatus us i with
    | some s => some s
    | none => if u.id = i then some u.status else none

/-- JS `queued || stored` on status strings: an absent or empty queued
status falls back to the stored one. -/
def orStored : Option String → String → String
  | some s, stored => if s = "" then stored else s
  | none, stored => stored

/-- `updates.find(u => u.id === i)`: FIRST matching queued update. -/
def findUpd (us : List StatusUpdate) (i : Int) : Option StatusUpdate :=
  us.find? (fun u => decide (u.id = i))

/-- In-place mutation of the first queued update with the given id
(`existingUpdate.status = s`). -/
def setFirst : List StatusUpdate → Int → String → List StatusUpdate
  | [], _, _ => []
  | u :: us, i, s =>
    if u.id = i then { u with status := s } :: us
    else u :: setFirst us i s

/-- One iteration of the child-upgrade loop of `propagateUpwardsComplete`:
a child whose effective status is `DONE` is queued to `COMPLETE` (merging
into an existing queued update if present, else appending), and the live
status map is updated. -/
def childPass (c : Task) (st : List StatusUpdate × (Int → Option String)) :
    List StatusUpdate × (Int → Option String) :=
  let s := orStored (st.2 c.id) c.status
  if s = "DONE" then
    let us1 :=
      match findUpd st.1 c.id with
      | some _ => setFirst st.1 c.id "COMPLETE"
      | none => st.1 ++ [⟨c.id, "COMPLETE"⟩]
    (us1, fun j => if j = c.id then some "COMPLETE" else st.2 j)
  else st

/-- The body of one call of `propagateUpwardsComplete(tasks, parentId,
updates)`: the possibly-extended update list, together with the parent id
of the recursive call when the source recurses (`some gp` only when the
parent was found, all children qualified, and `parent.parentId` is
truthy). -/
def upcNext (tasks : List Task) (parentId : Int) (updates : List StatusUpdate) :
    List StatusUpdate × Option Int :=
  match lookupTask tasks parentId with
  | none => (updates, none)
  | some parent =>
    let children := getTaskChildren tasks parentId
    if children.isEmpty then (updates, none)
    else
      let m0 : Int → Option String := lastStatus updates
      let allOk := children.all (fun c =>
        let s := orStored (m0 c.id) c.status
        decide (s = "DONE" ∨ s = "COMPLETE"))
      if allOk then
        let st1 := children.foldl (fun st c => childPass c st) (updates, m0)
        let us2 :=
          match findUpd updates parentId with
          | some _ => setFirst st1.1 parentId "COMPLETE"
          | none => st1.1 ++ [⟨parentId, "COMPLETE"⟩]
        match parent.parentId with
        | some gp => if gp ≠ 0 then (us2, some gp) else (us2, none)
        | none => (us2, none)
      else (updates, none)

/-- The body of one call of `propagateUpwardsDone(tasks, parentId,
updates)`: downgrade an effectively `COMPLETE` parent to `DONE`, recursing
into a truthy `parent.parentId`; any other effective status halts with the
updates unchanged. -/
def updNext (tasks : List Task) (parentId : Int) (updates : List StatusUpdate) :
    List StatusUpdate × Option Int :=
  match lookupTask tasks parentId with
  | none => (updates, none)
  | some parent =>
    let cur := orStored ((findUpd updates parentId).map StatusUpdate.status) parent.status
    if cur = "COMPLETE" then
      let us1 :=
        match findUpd updates parentId with
        | some _ => setFirst updates parentId "DONE"
        | none => updates ++ [⟨parentId, "DONE"⟩]
      match parent.parentId with
      | some gp => if gp ≠ 0 then (us1, some gp) else (us1, none)
      | none => (us1, none)
    else (updates, none)

/-- Shared driver of the two upward recursions: run the body, then recurse
into the parent id it designates.  The source functions recurse without
any termination guard, so the driver spends one unit of fuel per level. -/
def runUp (next : Int → List StatusUpdate → List StatusUpdate × Option Int) :
    Nat → Int → List StatusUpdate → Option (List StatusUpdate)
  | 0, _, _ => none
  | fuel + 1, parentId, updates =>
    match next parentId updates with
    | (us2, some gp) => runUp next fuel gp us2
    | (us2, none) => some us2

/-- `propagateUpwardsComplete(tasks, parentId, updates)`. -/
def propagateUpwardsComplete (tasks : List Task)
    (fuel : Nat) (parentId : Int) (updates : List StatusUpdate) :
    Option (List StatusUpdate) :=
  runUp (upcNext tasks) fuel parentId updates

/-- `propagateUpwardsDone(tasks, parentId, updates)`. -/
def propagateUpwardsDone (tasks : List Task)
    (fuel : Nat) (parentId : Int) (updates : List StatusUpdate) :
    Option (List StatusUpdate) :=
  runUp (updNext tasks) fuel parentId updates

/-- `propagateStatusChange(tasks, taskId, newStatus)`: seed update, the
`DONE` auto-upgrade check against the STORED child statuses, then the
upward-COMPLETE cascade (possibly twice: once from the `DONE` branch and
once from the `COMPLETE` branch after an upgrade) or the downward
reversion for `IN PROGRESS`. -/
def propagateStatusChange (fuel : Nat) (tasks : List Task) (taskId : Int)
    (newStatus : String) : Option (List StatusUpdate) :=
  match lookupTask tasks taskId with
  | none => some []
  | some t =>
    let children := getTaskChildren tasks taskId
    let upgrade := decide (newStatus = "DONE") && (!children.isEmpty) &&
      children.all (fun c => decide (c.status = "COMPLETE"))
    let s1 := if upgrade then "COMPLETE" else newStatus
    let us0 : List StatusUpdate := [⟨taskId, s1⟩]
    let r1 :=
      if newStatus = "DONE" then
        match t.parentId with
        | some p => if p ≠ 0 then propagateUpwardsComplete tasks fuel p us0 else some us0
        | none => some us0
      else some us0
    r1.bind (fun us1 =>
      let r2 :=
        if s1 = "COMPLETE" then
          match t.parentId with
          | some p => if p ≠ 0 then propagateUpwardsComplete tasks fuel p us1 else some us1
          | none => some us1
        else some us1
      r2.bind (fun us2 =>
        if s1 = "IN PROGRESS" then
          match t.parentId with
          | some p => if p ≠ 0 then propagateUpwardsDone tasks fuel p us2 else some us2
          | none => some us2
        else some us2))

/-- Reassigning the parent of task `taskId` to `parentId` in a snapshot
(the caller-side edit that `wouldCreateCircularDependency` guards). -/
def updateParent (tasks : List Task) (taskId parentId : Option Int) : List Task :=
  match taskId with
  | none => tasks
  | some x => tasks.map (fun t => if t.id = x then { t with parentId := parentId } else t)

/-- The data-model invariant that no task lists itself as its own parent
(spec section 3, "No dangling self-parent"). -/
def NoSelfParent (tasks : List Task) : Prop :=
  ∀ t ∈ tasks, t.parentId ≠ some t.id

/-- The data-model invariant that task ids are unique (spec section 3). -/
def UniqueIds (tasks : List Task) : Prop :=
  (tasks.map Task.id).Nodup

/-- The data-model invariant that task ids are positive (spec section 3). -/
def PositiveIds (tasks : List Task) : Prop :=
  ∀ t ∈ tasks, 0 < t.id

/-- At most one queued update per task id. -/
def UniqUpd (us : List StatusUpdate) : Prop :=
  (us.map StatusUpdate.id).Nodup

/-- Every queued update after the seed carries `COMPLETE` or `DONE`. -/
def TailCD (us : List StatusUpdate) : Prop :=
  ∀ u ∈ us.tail, u.status = "COMPLETE" ∨ u.status = "DONE"

/-- A task's effective status: its stored status merged with any update
already queued for it (the queued-status map semantics of the source). -/
def effStatus (us : List StatusUpdate) (t : Task) : String :=
  orStored (lastStatus us t.id) t.status

/-- The auto-upgrade test of the `DONE` branch of `propagateStatusChange`:
the changed task has at least one child and every child's STORED status is
`COMPLETE`. -/
def doneUpgrade (tasks : List Task) (taskId : Int) : Bool :=
  (!(getTaskChildren tasks taskId).isEmpty) &&
    (getTaskChildren tasks taskId).all (fun c => decide (c.status = "COMPLETE"))

/-- All ids that occur as somebody's (non-null) `parentId`. -/
def parentIdsFinset (tasks : List Task) : Finset Int :=
  tasks.foldr (fun t s => match t.parentId with | some q => insert q s | none => s) ∅

/-- Fuel that provably suffices for the visited-set-guarded cycle walk. -/
def defaultFuel (tasks : List Task) : Nat :=
  tasks.length + 2

/-- Spec section 8, Scenario A: root 1 with children 2 and 3, all
`IN PROGRESS`. -/
def scenarioA : List Task :=
  [⟨1, "IN PROGRESS", none⟩, ⟨2, "IN PROGRESS", some 1⟩, ⟨3, "IN PROGRESS", some 1⟩]

/-- Spec section 8, Scenario B: root 1 with children 2 (`DONE` incoming)
and 3 (`COMPLETE`). -/
def scenarioB : List Task :=
  [⟨1, "IN PROGRESS", none⟩, ⟨2, "DONE", some 1⟩, ⟨3, "COMPLETE", some 1⟩]

/-- Spec section 8, Scenario D: 9 (root, `IN PROGRESS`) → 10 (`COMPLETE`)
→ 11, and 11 moves to `IN PROGRESS`. -/
def scenarioD : List Task :=
  [⟨9, "IN PROGRESS", none⟩, ⟨10, "COMPLETE", some 9⟩, ⟨11, "DONE", some 10⟩]

/-- A single stored-`COMPLETE` root task. -/
def completeRoot : List Task :=
  [⟨1, "COMPLETE", none⟩]

/-- A snapshot whose parent links form a pre-existing 2-cycle of
`COMPLETE` tasks. -/
def cyclePair : List Task :=
  [⟨1, "COMPLETE", some 2⟩, ⟨2, "COMPLETE", some 1⟩]

/-- A two-task chain (2 under root 1) used as a concrete witness
snapshot. -/
def chainPair : List Task :=
  [⟨1, "IN PROGRESS", none⟩, ⟨2, "IN PROGRESS", some 1⟩]

/-- `propagateStatusChange` on the cyclic snapshot `cyclePair` exceeds
every fuel bound: the source recursion diverges there. -/
def PropagateDivergesOnCycle : Prop :=
  ∀ fuel, propagateStatusChange fuel cyclePair 1 "DONE" = none

/-! ### Basic lemmas about the id map and update-list primitives -/

theorem lookupTask_id {tasks : List Task} {i : Int} {t : Task}
    (h : lookupTask tasks i = some t) : t.id = i := by
  induction tasks with
  | nil => simp [lookupTask] at h
  | cons a ts ih =>
    rw [lookupTask] at h
    revert h
    cases hts : lookupTask ts i with
    | some r => intro h; cases h; exact ih hts
    | none =>
      intro h
      by_cases ha : a.id = i
      · rw [if_pos ha] at h; cases h; exact ha
      · rw [if_neg ha] at h; exact absurd h (by simp)

theorem lookupTask_mem {tasks : List Task} {i : Int} {t : Task}
    (h : lookupTask tasks i = some t) : t ∈ tasks := by
  induction tasks with
  | nil => simp [lookupTask] at h
  | cons a ts ih =>
    rw [lookupTask] at h
    revert h
    cases hts : lookupTask ts i with
    | some r => intro h; cases h; exact List.mem_cons_of_mem _ (ih hts)
    | none =>
      intro h
      by_cases ha : a.id = i
      · rw [if_pos ha] at h; cases h; exact List.mem_cons_self _ _
      · rw [if_neg ha] at h; exact absurd h (by simp)

theorem lookupTask_eq_none {tasks : List Task} {i : Int} :
    lookupTask tasks i = none ↔ ∀ t ∈ tasks, t.id ≠ i := by
  induction tasks with
  | nil => simp [lookupTask]
  | cons a ts ih =>
    rw [lookupTask]
    cases hts : lookupTask ts i with
    | some r =>
      simp only [hts]
      constructor
      · intro h; exact absurd h (by simp)
      · intro h
        exact absurd (h r (List.mem_cons_of_mem _ (lookupTask_mem hts))) (by simp [lookupTask_id hts])
    | none =>
      simp only [hts]
      constructor
      · intro h
        by_cases ha : a.id = i
        · rw [if_pos ha] at h; exact absurd h (by simp)
        · intro t ht
          rcases List.mem_cons.mp ht with rfl | ht
          · exact ha
          · exact (ih.mp hts) t ht
      · intro h
        rw [if_neg (h a (List.mem_cons_self _ _))]

theorem lookupTask_of_mem {tasks : List Task} {t : Task} {i : Int}
    (hu : UniqueIds tasks) (hm : t ∈ tasks) (hi : t.id = i) :
    lookupTask tasks i = some t := by
  induction tasks with
  | nil => simp at hm
  | cons a ts ih =>
    rw [lookupTask]
    rcases List.mem_cons.mp hm with rfl | hm
    · have hnone : lookupTask ts i = none := by
        rw [lookupTask_eq_none]
        intro u hu2 hui
        have hmm : t.id ∈ ts.map Task.id := by
          rw [← hi] at hui
          exact hui ▸ List.mem_map_of_mem Task.id hu2
        exact (List.nodup_cons.mp hu).1 hmm
      rw [hnone, if_pos hi]
    · have hts := ih (List.nodup_cons.mp hu).2 hm
      rw [hts]

theorem lastStatus_eq_none {us : List StatusUpdate} {i : Int} :
    lastStatus us i = none ↔ ∀ u ∈ us, u.id ≠ i := by
  induction us with
  | nil => simp [lastStatus]
  | cons a rest ih =>
    rw [lastStatus]
    cases hr : lastStatus rest i with
    | some s =>
      simp only [hr]
      constructor
      · intro h; exact absurd h (by simp)
      · intro h
        have hn : lastStatus rest i = none :=
          ih.mpr (fun u hu2 => h u (List.mem_cons_of_mem _ hu2))
        rw [hn] at hr; exact absurd hr (by simp)
    | none =>
      simp only [hr]
      constructor
      · intro h
        by_cases ha : a.id = i
        · rw [if_pos ha] at h; exact absurd h (by simp)
        · intro u hu2
          rcases List.mem_cons.mp hu2 with rfl | hu2
          · exact ha
          · exact (ih.mp hr) u hu2
      · intro h
        rw [if_neg (h a (List.mem_cons_self _ _))]

theorem lastStatus_mem {us : List StatusUpdate} {i : Int} {s : String}
    (h : lastStatus us i = some s) : ∃ u ∈ us, u.id = i ∧ u.status = s := by
  induction us with
  | nil => simp [lastStatus] at h
  | cons a rest ih =>
    rw [lastStatus] at h
    revert h
    cases hr : lastStatus rest i with
    | some r =>
      intro h; cases h
      rcases ih hr with ⟨u, hu1, hu2, hu3⟩
      exact ⟨u, List.mem_cons_of_mem _ hu1, hu2, hu3⟩
    | none =>
      intro h
      by_cases ha : a.id = i
      · rw [if_pos ha] at h; cases h
        exact ⟨a, List.mem_cons_self _ _, ha, rfl⟩
      · rw [if_neg ha] at h; exact absurd h (by simp)

theorem lastStatus_append_single {us : List StatusUpdate} {i j : Int} {s : String} :
    lastStatus (us ++ [⟨i, s⟩]) j = if i = j then some s else lastStatus us j := by
  induction us with
  | nil =>
    by_cases hij : i = j <;> simp [lastStatus, hij]
  | cons a rest ih =>
    simp only [List.cons_append, lastStatus, List.append_eq]
    rw [ih]
    by_cases hij : i = j <;> simp [hij]

theorem setFirst_map_id {i : Int} {s : String} :
    ∀ us : List StatusUpdate, (setFirst us i s).map StatusUpdate.id = us.map StatusUpdate.id := by
  intro us
  induction us with
  | nil => rfl
  | cons a rest ih =>
    rw [setFirst]
    by_cases ha : a.id = i
    · rw [if_pos ha]; simp
    · rw [if_neg ha]; simp [ih]

theorem mem_setFirst {us : List StatusUpdate} {u : StatusUpdate} {i : Int} {s : String}
    (h : u ∈ setFirst us i s) : u ∈ us ∨ (u.id = i ∧ u.status = s) := by
  induction us with
  | nil => simp [setFirst] at h
  | cons a rest ih =>
    rw [setFirst] at h
    by_cases ha : a.id = i
    · rw [if_pos ha] at h
      rcases List.mem_cons.mp h with rfl | h
      · exact Or.inr ⟨ha, rfl⟩
      · exact Or.inl (List.mem_cons_of_mem _ h)
    · rw [if_neg ha] at h
      rcases List.mem_cons.mp h with rfl | h
      · exact Or.inl (List.mem_cons_self _ _)
      · rcases ih h with h2 | h2
        · exact Or.inl (List.mem_cons_of_mem _ h2)
        · exact Or.inr h2

theorem lastStatus_setFirst_ne {us : List StatusUpdate} {i j : Int} {s : String}
    (hij : j ≠ i) : lastStatus (setFirst us i s) j = lastStatus us j := by
  induction us with
  | nil => rfl
  | cons a rest ih =>
    rw [setFirst]
    by_cases ha : a.id = i
    · rw [if_pos ha]
      simp only [lastStatus]
      have haj : a.id ≠ j := by rw [ha]; intro h2; exact hij h2.symm
      cases hr : lastStatus rest j with
      | some r => rfl
      | none => simp [if_neg (by simpa using haj)]
    · rw [if_neg ha]
      simp only [lastStatus, ih]

theorem lastStatus_setFirst_or {us : List StatusUpdate} {i j : Int} {s : String} :
    lastStatus (setFirst us i s) j = lastStatus us j ∨
      lastStatus (setFirst us i s) j = some s := by
  by_cases hij : j = i
  · subst hij
    induction us with
    | nil => exact Or.inl rfl
    | cons a rest ih =>
      rw [setFirst]
      by_cases ha : a.id = j
      · rw [if_pos ha]
        simp only [lastStatus]
        cases hr : lastStatus rest j with
        | some r => exact Or.inl rfl
        | none => simp [ha]
      · rw [if_neg ha]
        simp only [lastStatus]
        cases hr : lastStatus (setFirst rest j s) j with
        | some r =>
          rcases ih with h2 | h2
          · rw [hr] at h2; rw [← h2]; exact Or.inl rfl
          · rw [hr] at h2; cases h2; exact Or.inr rfl
        | none =>
          rcases ih with h2 | h2
          · rw [hr] at h2; rw [← h2]
            exact Or.inl rfl
          · rw [hr] at h2; exact absurd h2 (by simp)
  · exact Or.inl (lastStatus_setFirst_ne hij)

theorem lastStatus_setFirst_self {us : List StatusUpdate} {i : Int} {s : String}
    (hu : UniqUpd us) (hex : ∃ u ∈ us, u.id = i) :
    lastStatus (setFirst us i s) i = some s := by
  induction us with
  | nil => simp at hex
  | cons a rest ih =>
    rw [setFirst]
    by_cases ha : a.id = i
    · rw [if_pos ha]
      simp only [lastStatus]
      have hnone : lastStatus rest i = none := by
        rw [lastStatus_eq_none]
        intro u hu2 hui
        have : a.id ∈ rest.map StatusUpdate.id := by
          rw [ha, ← hui]
          exact List.mem_map_of_mem StatusUpdate.id hu2
        exact (List.nodup_cons.mp hu).1 this
      rw [hnone]
      simp [ha]
    · rw [if_neg ha]
      simp only [lastStatus]
      rcases hex with ⟨u, hum, hui⟩
      rcases List.mem_cons.mp hum with rfl | hum
      · exact absurd hui ha
      · rw [ih (List.nodup_cons.mp hu).2 ⟨u, hum, hui⟩]

theorem findUpd_eq_none {us : List StatusUpdate} {i : Int} :
    findUpd us i = none ↔ ∀ u ∈ us, u.id ≠ i := by
  rw [findUpd, List.find?_eq_none]
  constructor
  · intro h u hu
    have := h u hu
    simpa using this
  · intro h u hu
    simpa using h u hu

theorem findUpd_some_of_mem {us : List StatusUpdate} {u : StatusUpdate} {i : Int}
    (hm : u ∈ us) (hi : u.id = i) : ∃ v, findUpd us i = some v := by
  cases hf : findUpd us i with
  | some v => exact ⟨v, rfl⟩
  | none => exact absurd hi (findUpd_eq_none.mp hf u hm)

theorem foldl_induction {σ α : Type} (f : σ → α → σ) (P : σ → Prop) :
    ∀ (l : List α) (s0 : σ), P s0 → (∀ s a, a ∈ l → P s → P (f s a)) →
      P (l.foldl f s0) := by
  intro l
  induction l with
  | nil => intro s0 h0 _; exact h0
  | cons a rest ih =>
    intro s0 h0 hstep
    rw [List.foldl_cons]
    exact ih (f s0 a) (hstep s0 a (List.mem_cons_self _ _) h0)
      (fun s b hb hs => hstep s b (List.mem_cons_of_mem _ hb) hs)

theorem runUp_climb (next : Int → List StatusUpdate → List StatusUpdate × Option Int)
    (P : List StatusUpdate → Prop)
    (hstep : ∀ p us, P us → P (next p us).1) :
    ∀ fuel p us us', runUp next fuel p us = some us' → P us → P us' := by
  intro fuel
  induction fuel with
  | zero => intro p us us' h; simp [runUp] at h
  | succ n ih =>
    intro p us us' h hP
    rw [runUp] at h
    revert h
    cases hn : next p us with
    | mk us2 o =>
      cases o with
      | some gp =>
        intro h
        have hP2 : P us2 := by
          have := hstep p us hP
          rw [hn] at this
          exact this
        exact ih gp us2 us' h hP2
      | none =>
        intro h
        cases h
        have := hstep p us hP
        rw [hn] at this
        exact this

/-! ### Case analysis of the upward-propagation bodies -/

theorem upcNext_halt_no_children {tasks : List Task} {p : Int} {us : List StatusUpdate}
    (h : getTaskChildren tasks p = []) : upcNext tasks p us = (us, none) := by
  rw [upcNext]
  cases hlk : lookupTask tasks p with
  | none => rfl
  | some parent => simp [h]

theorem upcNext_halt_not_all {tasks : List Task} {p : Int} {us : List StatusUpdate}
    {c : Task} (hc : c ∈ getTaskChildren tasks p)
    (hs : ¬ (effStatus us c = "DONE" ∨ effStatus us c = "COMPLETE")) :
    upcNext tasks p us = (us, none) := by
  rw [upcNext]
  cases hlk : lookupTask tasks p with
  | none => rfl
  | some parent =>
    have hne : (getTaskChildren tasks p).isEmpty = false := by
      cases hch : getTaskChildren tasks p with
      | nil => rw [hch] at hc; simp at hc
      | cons x xs => rfl
    simp only [hne]
    simp
    intro hAll
    exact absurd (hAll c hc) hs

theorem upcNext_qualify {tasks : List Task} {p : Int} {us : List StatusUpdate}
    {parent : Task} (hlk : lookupTask tasks p = some parent)
    (hne : getTaskChildren tasks p ≠ [])
    (hall : ∀ c ∈ getTaskChildren tasks p,
      effStatus us c = "DONE" ∨ effStatus us c = "COMPLETE") :
    upcNext tasks p us =
      ((match findUpd us p with
        | some _ => setFirst ((getTaskChildren tasks p).foldl
            (fun st c => childPass c st) (us, lastStatus us)).1 p "COMPLETE"
        | none => ((getTaskChildren tasks p).foldl
            (fun st c => childPass c st) (us, lastStatus us)).1 ++ [⟨p, "COMPLETE"⟩]),
       (match parent.parentId with
        | some gp => if gp ≠ 0 then some gp else none
        | none => none)) := by
  rw [upcNext, hlk]
  have hne2 : (getTaskChildren tasks p).isEmpty = false := by
    cases hch : getTaskChildren tasks p with
    | nil => exact absurd hch hne
    | cons x xs => rfl
  have hallb : (getTaskChildren tasks p).all
      (fun c => decide (orStored (lastStatus us c.id) c.status = "DONE" ∨
        orStored (lastStatus us c.id) c.status = "COMPLETE")) = true := by
    rw [List.all_eq_true]
    intro c hc
    rw [decide_eq_true_eq]
    exact hall c hc
  simp only [hne2, hallb]
  cases hpp : parent.parentId with
  | none => simp
  | some gp =>
    by_cases hgp : gp = 0 <;> simp [hgp]

theorem updNext_halt {tasks : List Task} {p : Int} {us : List StatusUpdate}
    (h : ∀ parent, lookupTask tasks p = some parent →
      orStored ((findUpd us p).map StatusUpdate.status) parent.status ≠ "COMPLETE") :
    updNext tasks p us = (us, none) := by
  cases hlk : lookupTask tasks p with
  | none => simp [updNext, hlk]
  | some parent => simp [updNext, hlk, h parent hlk]

theorem updNext_complete {tasks : List Task} {p : Int} {us : List StatusUpdate}
    {parent : Task} (hlk : lookupTask tasks p = some parent)
    (hcur : orStored ((findUpd us p).map StatusUpdate.status) parent.status = "COMPLETE") :
    updNext tasks p us =
      ((match findUpd us p with
        | some _ => setFirst us p "DONE"
        | none => us ++ [⟨p, "DONE"⟩]),
       (match parent.parentId with
        | some gp => if gp ≠ 0 then some gp else none
        | none => none)) := by
  rw [updNext, hlk]
  simp only [hcur, if_pos, ite_true]
  cases hpp : parent.parentId with
  | none => simp
  | some gp =>
    by_cases hgp : gp = 0 <;> simp [hgp]

/-! ### Step lemmas for the child-upgrade loop -/

theorem mem_getTaskChildren {tasks : List Task} {p : Int} {c : Task} :
    c ∈ getTaskChildren tasks p ↔ c ∈ tasks ∧ c.parentId = some p := by
  simp [getTaskChildren, List.mem_filter]

theorem tailCD_setFirst {us : List StatusUpdate} {i : Int} {s : String}
    (h : TailCD us) (hs : s = "COMPLETE" ∨ s = "DONE") : TailCD (setFirst us i s) := by
  cases us with
  | nil => intro u hu; simp [setFirst] at hu
  | cons a rest =>
    rw [setFirst]
    by_cases ha : a.id = i
    · rw [if_pos ha]
      intro u hu
      exact h u hu
    · rw [if_neg ha]
      intro u hu
      simp only [List.tail_cons] at hu
      rcases mem_setFirst hu with h2 | h2
      · exact h u h2
      · rw [h2.2]; exact hs

theorem tailCD_append {us : List StatusUpdate} {i : Int} {s : String}
    (h : TailCD us) (hs : s = "COMPLETE" ∨ s = "DONE") :
    TailCD (us ++ [⟨i, s⟩]) := by
  cases us with
  | nil => intro u hu; simp at hu
  | cons a rest =>
    intro u hu
    simp only [List.cons_append, List.tail_cons] at hu
    rcases List.mem_append.mp hu with h2 | h2
    · exact h u h2
    · simp at h2; rw [h2]; exact hs

theorem childPass_writeonly {c : Task} {st : List StatusUpdate × (Int → Option String)}
    (j : Int) : lastStatus (childPass c st).1 j = lastStatus st.1 j ∨
      lastStatus (childPass c st).1 j = some "COMPLETE" := by
  rw [childPass]
  by_cases hs : orStored (st.2 c.id) c.status = "DONE"
  · rw [if_pos hs]
    cases hf : findUpd st.1 c.id with
    | some u =>
      simp only []
      exact lastStatus_setFirst_or
    | none =>
      simp only []
      rw [lastStatus_append_single]
      by_cases hij : c.id = j
      · rw [if_pos hij]; exact Or.inr rfl
      · rw [if_neg hij]; exact Or.inl rfl
  · rw [if_neg hs]
    exact Or.inl rfl

theorem childPass_tail {c : Task} {st : List StatusUpdate × (Int → Option String)}
    (h : TailCD st.1) : TailCD (childPass c st).1 := by
  rw [childPass]
  by_cases hs : orStored (st.2 c.id) c.status = "DONE"
  · rw [if_pos hs]
    cases hf : findUpd st.1 c.id with
    | some u => exact tailCD_setFirst h (Or.inl rfl)
    | none => exact tailCD_append h (Or.inl rfl)
  · rw [if_neg hs]
    exact h

theorem childPass_ids {c : Task} {st : List StatusUpdate × (Int → Option String)}
    {x : Int} (h : x ∈ (childPass c st).1.map StatusUpdate.id) :
    x ∈ st.1.map StatusUpdate.id ∨ x = c.id := by
  rw [childPass] at h
  by_cases hs : orStored (st.2 c.id) c.status = "DONE"
  · rw [if_pos hs] at h
    cases hf : findUpd st.1 c.id with
    | some u =>
      rw [hf] at h
      simp only [setFirst_map_id] at h
      exact Or.inl h
    | none =>
      rw [hf] at h
      simp only [List.map_append] at h
      rcases List.mem_append.mp h with h2 | h2
      · exact Or.inl h2
      · simp at h2; exact Or.inr h2
  · rw [if_neg hs] at h
    exact Or.inl h

theorem childPass_uniq {c : Task} {st : List StatusUpdate × (Int → Option String)}
    (h : UniqUpd st.1) : UniqUpd (childPass c st).1 := by
  rw [childPass]
  by_cases hs : orStored (st.2 c.id) c.status = "DONE"
  · rw [if_pos hs]
    cases hf : findUpd st.1 c.id with
    | some u =>
      simp only []
      rw [UniqUpd, setFirst_map_id]
      exact h
    | none =>
      simp only []
      rw [UniqUpd, List.map_append]
      rw [List.nodup_append]
      refine ⟨h, by simp, ?_⟩
      intro x hx
      simp only [List.map_cons, List.map_nil, List.mem_singleton]
      intro hx2
      rw [hx2] at hx
      rcases List.mem_map.mp hx with ⟨u, hu, hui⟩
      exact (findUpd_eq_none.mp hf u hu) hui
  · rw [if_neg hs]
    exact h

theorem childPass_head {c : Task} {st : List StatusUpdate × (Int → Option String)}
    {v : StatusUpdate} {rest : List StatusUpdate} (h : st.1 = v :: rest) :
    ∃ rest2, (childPass c st).1 = v :: rest2 ∨
      (childPass c st).1 = ⟨v.id, "COMPLETE"⟩ :: rest2 := by
  rw [childPass]
  by_cases hs : orStored (st.2 c.id) c.status = "DONE"
  · rw [if_pos hs]
    cases hf : findUpd st.1 c.id with
    | some u =>
      simp only []
      rw [h, setFirst]
      by_cases hv : v.id = c.id
      · rw [if_pos hv]
        exact ⟨rest, Or.inr rfl⟩
      · rw [if_neg hv]
        exact ⟨setFirst rest c.id "COMPLETE", Or.inl rfl⟩
    | none =>
      simp only []
      rw [h]
      exact ⟨rest ++ [⟨c.id, "COMPLETE"⟩], Or.inl (by simp)⟩
  · rw [if_neg hs]
    exact ⟨rest, Or.inl h⟩

/-! ### Output shape of the propagation bodies -/

theorem upcNext_none {tasks : List Task} {p : Int} {us : List StatusUpdate}
    (h : lookupTask tasks p = none) : upcNext tasks p us = (us, none) := by
  simp [upcNext, h]

theorem upcNext_out (tasks : List Task) (p : Int) (us : List StatusUpdate) :
    (upcNext tasks p us).1 = us ∨
    ((findUpd us p ≠ none ∧ (upcNext tasks p us).1 =
        setFirst ((getTaskChildren tasks p).foldl (fun st c => childPass c st)
          (us, lastStatus us)).1 p "COMPLETE") ∨
     (findUpd us p = none ∧ (upcNext tasks p us).1 =
        ((getTaskChildren tasks p).foldl (fun st c => childPass c st)
          (us, lastStatus us)).1 ++ [⟨p, "COMPLETE"⟩])) := by
  cases hlk : lookupTask tasks p with
  | none => rw [upcNext_none hlk]; exact Or.inl rfl
  | some parent =>
    by_cases hch : getTaskChildren tasks p = []
    · rw [upcNext_halt_no_children hch]; exact Or.inl rfl
    · by_cases hall : ∀ c ∈ getTaskChildren tasks p,
        effStatus us c = "DONE" ∨ effStatus us c = "COMPLETE"
      · rw [upcNext_qualify hlk hch hall]
        cases hf : findUpd us p with
        | some u =>
          refine Or.inr (Or.inl ⟨by simp [hf], ?_⟩)
          simp [hf]
        | none =>
          refine Or.inr (Or.inr ⟨rfl, ?_⟩)
          simp [hf]
      · push_neg at hall
        rcases hall with ⟨c, hc, hcs⟩
        rw [upcNext_halt_not_all hc (by
          intro hor
          rcases hor with h1 | h1
          · exact hcs.1 h1
          · exact hcs.2 h1)]
        exact Or.inl rfl

theorem updNext_out (tasks : List Task) (p : Int) (us : List StatusUpdate) :
    (updNext tasks p us).1 = us ∨
    ((findUpd us p ≠ none ∧ (updNext tasks p us).1 = setFirst us p "DONE") ∨
     (findUpd us p = none ∧ (updNext tasks p us).1 = us ++ [⟨p, "DONE"⟩])) := by
  cases hlk : lookupTask tasks p with
  | none => rw [updNext_halt (by intro q hq; rw [hlk] at hq; exact absurd hq (by simp))]
            exact Or.inl rfl
  | some parent =>
    by_cases hcur : orStored ((findUpd us p).map StatusUpdate.status) parent.status = "COMPLETE"
    · rw [updNext_complete hlk hcur]
      cases hf : findUpd us p with
      | some u =>
        refine Or.inr (Or.inl ⟨by simp [hf], ?_⟩)
        simp [hf]
      | none =>
        refine Or.inr (Or.inr ⟨rfl, ?_⟩)
        simp [hf]
    · rw [updNext_halt (by
        intro q hq
        rw [hlk] at hq
        cases hq
        exact hcur)]
      exact Or.inl rfl

theorem orS_trans {a b c : List StatusUpdate} {j : Int} {s : String}
    (h1 : lastStatus b j = lastStatus a j ∨ lastStatus b j = some s)
    (h2 : lastStatus c j = lastStatus b j ∨ lastStatus c j = some s) :
    lastStatus c j = lastStatus a j ∨ lastStatus c j = some s := by
  rcases h2 with h2 | h2
  · rcases h1 with h1 | h1
    · exact Or.inl (h2.trans h1)
    · exact Or.inr (h2.trans h1)
  · exact Or.inr h2

theorem upcFold_inv {tasks : List Task} {p : Int} {us : List StatusUpdate}
    (P : List StatusUpdate × (Int → Option String) → Prop)
    (h0 : P (us, lastStatus us))
    (hstep : ∀ st c, c ∈ getTaskChildren tasks p → P st → P (childPass c st)) :
    P ((getTaskChildren tasks p).foldl (fun st c => childPass c st)
      (us, lastStatus us)) :=
  foldl_induction _ P _ _ h0 (fun s a ha hs => hstep s a ha hs)

/-! ### Invariants preserved by the propagation bodies -/

theorem upcNext_writeonly (tasks : List Task) (p : Int) (us : List StatusUpdate)
    (j : Int) : lastStatus (upcNext tasks p us).1 j = lastStatus us j ∨
      lastStatus (upcNext tasks p us).1 j = some "COMPLETE" := by
  rcases upcNext_out tasks p us with h | ⟨_, h⟩ | ⟨_, h⟩
  · rw [h]; exact Or.inl rfl
  all_goals
    have hfold : ∀ k, lastStatus ((getTaskChildren tasks p).foldl
        (fun st c => childPass c st) (us, lastStatus us)).1 k = lastStatus us k ∨
        lastStatus ((getTaskChildren tasks p).foldl
          (fun st c => childPass c st) (us, lastStatus us)).1 k = some "COMPLETE" := by
      refine upcFold_inv (fun st => ∀ k, lastStatus st.1 k = lastStatus us k ∨
        lastStatus st.1 k = some "COMPLETE") (fun k => Or.inl rfl) ?_
      intro st c _ hP k
      exact orS_trans (hP k) (childPass_writeonly k)
  · rw [h]
    exact orS_trans (hfold j) lastStatus_setFirst_or
  · rw [h, lastStatus_append_single]
    by_cases hpj : p = j
    · rw [if_pos hpj]; exact Or.inr rfl
    · rw [if_neg hpj]; exact hfold j

theorem upcNext_tail (tasks : List Task) (p : Int) (us : List StatusUpdate)
    (h : TailCD us) : TailCD (upcNext tasks p us).1 := by
  rcases upcNext_out tasks p us with ho | ⟨_, ho⟩ | ⟨_, ho⟩
  · rw [ho]; exact h
  all_goals
    have hfold : TailCD ((getTaskChildren tasks p).foldl
        (fun st c => childPass c st) (us, lastStatus us)).1 := by
      refine upcFold_inv (fun st => TailCD st.1) h ?_
      intro st c _ hP
      exact childPass_tail hP
  · rw [ho]
    exact tailCD_setFirst hfold (Or.inl rfl)
  · rw [ho]
    exact tailCD_append hfold (Or.inl rfl)

theorem upcNext_uniq (tasks : List Task) (p : Int) (us : List StatusUpdate)
    (hsp : NoSelfParent tasks) (h : UniqUpd us) : UniqUpd (upcNext tasks p us).1 := by
  rcases upcNext_out tasks p us with ho | ⟨hf, ho⟩ | ⟨hf, ho⟩
  all_goals
    have hfold : UniqUpd ((getTaskChildren tasks p).foldl
        (fun st c => childPass c st) (us, lastStatus us)).1 ∧
        ∀ x ∈ ((getTaskChildren tasks p).foldl
          (fun st c => childPass c st) (us, lastStatus us)).1.map StatusUpdate.id,
          x ∈ us.map StatusUpdate.id ∨ ∃ c ∈ getTaskChildren tasks p, x = c.id := by
      refine upcFold_inv (fun st => UniqUpd st.1 ∧
        ∀ x ∈ st.1.map StatusUpdate.id,
          x ∈ us.map StatusUpdate.id ∨ ∃ c ∈ getTaskChildren tasks p, x = c.id)
        ⟨h, fun x hx => Or.inl hx⟩ ?_
      intro st c hc hP
      refine ⟨childPass_uniq hP.1, ?_⟩
      intro x hx
      rcases childPass_ids hx with h2 | h2
      · exact hP.2 x h2
      · exact Or.inr ⟨c, hc, h2⟩
  · rw [ho]; exact h
  · rw [ho]
    rw [UniqUpd, setFirst_map_id]
    exact hfold.1
  · rw [ho]
    rw [UniqUpd, List.map_append]
    rw [List.nodup_append]
    refine ⟨hfold.1, by simp, ?_⟩
    intro x hx
    simp only [List.map_cons, List.map_nil, List.mem_singleton]
    intro hx2
    rw [hx2] at hx
    rcases hfold.2 p hx with h2 | ⟨c, hc, h2⟩
    · rcases List.mem_map.mp h2 with ⟨u, hu, hui⟩
      exact (findUpd_eq_none.mp hf u hu) hui
    · rcases mem_getTaskChildren.mp hc with ⟨hcm, hcp⟩
      exact (hsp c hcm) (by rw [hcp, h2])

theorem upcNext_head (tasks : List Task) (p : Int) (us : List StatusUpdate)
    {v : StatusUpdate} {rest : List StatusUpdate} (h : us = v :: rest) :
    ∃ rest2, (upcNext tasks p us).1 = v :: rest2 ∨
      (upcNext tasks p us).1 = ⟨v.id, "COMPLETE"⟩ :: rest2 := by
  rcases upcNext_out tasks p us with ho | ⟨_, ho⟩ | ⟨_, ho⟩
  · rw [ho]; exact ⟨rest, Or.inl h⟩
  all_goals
    have hfold : ∃ r2, ((getTaskChildren tasks p).foldl
        (fun st c => childPass c st) (us, lastStatus us)).1 = v :: r2 ∨
        ((getTaskChildren tasks p).foldl
          (fun st c => childPass c st) (us, lastStatus us)).1 = ⟨v.id, "COMPLETE"⟩ :: r2 := by
      refine upcFold_inv (fun st => ∃ r2, st.1 = v :: r2 ∨
        st.1 = ⟨v.id, "COMPLETE"⟩ :: r2) ⟨rest, Or.inl h⟩ ?_
      intro st c _ hP
      rcases hP with ⟨r2, h2 | h2⟩
      · exact childPass_head h2
      · rcases childPass_head h2 with ⟨r3, h3 | h3⟩
        · exact ⟨r3, Or.inr h3⟩
        · exact ⟨r3, Or.inr h3⟩
  · rcases hfold with ⟨r2, h2 | h2⟩ <;> rw [ho, h2, setFirst]
    · by_cases hv : v.id = p
      · rw [if_pos hv]
        exact ⟨r2, Or.inr rfl⟩
      · rw [if_neg hv]
        exact ⟨setFirst r2 p "COMPLETE", Or.inl rfl⟩
    · by_cases hv : v.id = p
      · rw [if_pos (by simpa using hv)]
        exact ⟨r2, Or.inr rfl⟩
      · rw [if_neg (by simpa using hv)]
        exact ⟨setFirst r2 p "COMPLETE", Or.inr rfl⟩
  · rcases hfold with ⟨r2, h2 | h2⟩ <;> rw [ho, h2]
    · exact ⟨r2 ++ [⟨p, "COMPLETE"⟩], Or.inl (by simp)⟩
    · exact ⟨r2 ++ [⟨p, "COMPLETE"⟩], Or.inr (by simp)⟩

theorem updNext_writeonly (tasks : List Task) (p : Int) (us : List StatusUpdate)
    (j : Int) : lastStatus (updNext tasks p us).1 j = lastStatus us j ∨
      lastStatus (updNext tasks p us).1 j = some "DONE" := by
  rcases updNext_out tasks p us with h | ⟨_, h⟩ | ⟨_, h⟩
  · rw [h]; exact Or.inl rfl
  · rw [h]
    exact lastStatus_setFirst_or
  · rw [h, lastStatus_append_single]
    by_cases hpj : p = j
    · rw [if_pos hpj]; exact Or.inr rfl
    · rw [if_neg hpj]; exact Or.inl rfl

theorem updNext_tail (tasks : List Task) (p : Int) (us : List StatusUpdate)
    (h : TailCD us) : TailCD (updNext tasks p us).1 := by
  rcases updNext_out tasks p us with ho | ⟨_, ho⟩ | ⟨_, ho⟩
  · rw [ho]; exact h
  · rw [ho]; exact tailCD_setFirst h (Or.inr rfl)
  · rw [ho]; exact tailCD_append h (Or.inr rfl)

theorem updNext_uniq (tasks : List Task) (p : Int) (us : List StatusUpdate)
    (h : UniqUpd us) : UniqUpd (updNext tasks p us).1 := by
  rcases updNext_out tasks p us with ho | ⟨hf, ho⟩ | ⟨hf, ho⟩
  · rw [ho]; exact h
  · rw [ho, UniqUpd, setFirst_map_id]; exact h
  · rw [ho, UniqUpd, List.map_append, List.nodup_append]
    refine ⟨h, by simp, ?_⟩
    intro x hx
    simp only [List.map_cons, List.map_nil, List.mem_singleton]
    intro hx2
    rw [hx2] at hx
    rcases List.mem_map.mp hx with ⟨u, hu, hui⟩
    exact (findUpd_eq_none.mp hf u hu) hui

theorem updNext_head (tasks : List Task) (p : Int) (us : List StatusUpdate)
    {v : StatusUpdate} {rest : List StatusUpdate} (h : us = v :: rest) :
    ∃ rest2, (updNext tasks p us).1 = v :: rest2 ∨
      (updNext tasks p us).1 = ⟨v.id, "DONE"⟩ :: rest2 := by
  rcases updNext_out tasks p us with ho | ⟨_, ho⟩ | ⟨_, ho⟩
  · rw [ho]; exact ⟨rest, Or.inl h⟩
  · rw [ho, h, setFirst]
    by_cases hv : v.id = p
    · rw [if_pos hv]
      exact ⟨rest, Or.inr rfl⟩
    · rw [if_neg hv]
      exact ⟨setFirst rest p "DONE", Or.inl rfl⟩
  · rw [ho, h]
    exact ⟨rest ++ [⟨p, "DONE"⟩], Or.inl (by simp)⟩

/-! ### Plumbing lemmas for `propagateStatusChange` -/

theorem psc_nil {tasks : List Task} {i : Int} {s : String} {fuel : Nat}
    (h : lookupTask tasks i = none) :
    propagateStatusChange fuel tasks i s = some [] := by
  simp [propagateStatusChange, h]

theorem ifMatch_some {f : Int → List StatusUpdate → Option (List StatusUpdate)}
    {t : Task} {us us1 : List StatusUpdate} {c : Prop} [Decidable c]
    (h : (if c then
            (match t.parentId with
             | some p => if p ≠ 0 then f p us else some us
             | none => some us)
          else some us) = some us1)
    (P : List StatusUpdate → Prop)
    (hrun : ∀ p us2 us3, f p us2 = some us3 → P us2 → P us3) (hP : P us) : P us1 := by
  by_cases hc : c
  · rw [if_pos hc] at h
    split at h
    · split at h
      · exact hrun _ us us1 h hP
      · cases h; exact hP
    · cases h; exact hP
  · rw [if_neg hc] at h; cases h; exact hP

theorem psc_preserve {tasks : List Task} {i : Int} {s : String} {fuel : Nat}
    {t : Task} {us' : List StatusUpdate}
    (P : List StatusUpdate → Prop)
    (h1 : ∀ p us, P us → P (upcNext tasks p us).1)
    (h2 : ∀ p us, P us → P (updNext tasks p us).1)
    (ht : lookupTask tasks i = some t)
    (h0 : ∀ s1, P [⟨i, s1⟩])
    (h : propagateStatusChange fuel tasks i s = some us') : P us' := by
  simp only [propagateStatusChange, ht] at h
  rcases Option.bind_eq_some.mp h with ⟨us1, hr1, h3⟩
  rcases Option.bind_eq_some.mp h3 with ⟨us2, hr2, h4⟩
  have hrun1 : ∀ p usA usB, propagateUpwardsComplete tasks fuel p usA = some usB →
      P usA → P usB := by
    intro p usA usB hAB hPA
    exact runUp_climb (upcNext tasks) P h1 fuel p usA usB hAB hPA
  have hrun2 : ∀ p usA usB, propagateUpwardsDone tasks fuel p usA = some usB →
      P usA → P usB := by
    intro p usA usB hAB hPA
    exact runUp_climb (updNext tasks) P h2 fuel p usA usB hAB hPA
  have hP1 : P us1 := ifMatch_some hr1 P hrun1 (h0 _)
  have hP2 : P us2 := ifMatch_some hr2 P hrun1 hP1
  exact ifMatch_some h4 P hrun2 hP2

theorem psc_preserve_noip {tasks : List Task} {i : Int} {s : String} {fuel : Nat}
    {t : Task} {us' : List StatusUpdate}
    (P : List StatusUpdate → Prop)
    (h1 : ∀ p us, P us → P (upcNext tasks p us).1)
    (hs : s ≠ "IN PROGRESS")
    (ht : lookupTask tasks i = some t)
    (h0 : ∀ s1, P [⟨i, s1⟩])
    (h : propagateStatusChange fuel tasks i s = some us') : P us' := by
  simp only [propagateStatusChange, ht] at h
  rcases Option.bind_eq_some.mp h with ⟨us1, hr1, h3⟩
  rcases Option.bind_eq_some.mp h3 with ⟨us2, hr2, h4⟩
  have hrun1 : ∀ p usA usB, propagateUpwardsComplete tasks fuel p usA = some usB →
      P usA → P usB := by
    intro p usA usB hAB hPA
    exact runUp_climb (upcNext tasks) P h1 fuel p usA usB hAB hPA
  have hP1 : P us1 := ifMatch_some hr1 P hrun1 (h0 _)
  have hP2 : P us2 := ifMatch_some hr2 P hrun1 hP1
  have hcond : ¬ ((if (decide (s = "DONE") && (!(getTaskChildren tasks i).isEmpty) &&
      (getTaskChildren tasks i).all (fun c => decide (c.status = "COMPLETE")) : Bool)
        then "COMPLETE" else s) = "IN PROGRESS") := by
    split
    · intro heq; exact absurd heq (by decide)
    · exact hs
  rw [if_neg hcond] at h4
  cases h4
  exact hP2

theorem psc_inprogress {tasks : List Task} {i : Int} {t : Task} {fuel : Nat}
    (ht : lookupTask tasks i = some t) :
    propagateStatusChange fuel tasks i "IN PROGRESS" =
      (match t.parentId with
       | some p => if p ≠ 0 then
            propagateUpwardsDone tasks fuel p [⟨i, "IN PROGRESS"⟩]
          else some [⟨i, "IN PROGRESS"⟩]
       | none => some [⟨i, "IN PROGRESS"⟩]) := by
  cases hpp : t.parentId with
  | none => simp [propagateStatusChange, ht, hpp]
  | some p =>
    by_cases hp : p = 0 <;> simp [propagateStatusChange, ht, hpp, hp]

/-! ### Invariants of a whole propagation run -/

theorem psc_tailCD {fuel : Nat} {tasks : List Task} {i : Int} {s : String}
    {us' : List StatusUpdate}
    (h : propagateStatusChange fuel tasks i s = some us') : TailCD us' := by
  cases hlk : lookupTask tasks i with
  | none =>
    rw [psc_nil hlk] at h
    cases h
    intro u hu
    simp at hu
  | some t =>
    exact psc_preserve TailCD (fun p us hP => upcNext_tail tasks p us hP)
      (fun p us hP => updNext_tail tasks p us hP) hlk
      (fun s1 => by intro u hu; simp at hu) h

theorem psc_uniq_head {fuel : Nat} {tasks : List Task} {i : Int} {s : String}
    {t : Task} {us' : List StatusUpdate}
    (hsp : NoSelfParent tasks) (ht : lookupTask tasks i = some t)
    (h : propagateStatusChange fuel tasks i s = some us') :
    UniqUpd us' ∧ ∃ s0 rest, us' = ⟨i, s0⟩ :: rest := by
  refine psc_preserve
    (fun us => UniqUpd us ∧ ∃ s0 rest, us = ⟨i, s0⟩ :: rest) ?_ ?_ ht ?_ h
  · intro p us hP
    refine ⟨upcNext_uniq tasks p us hsp hP.1, ?_⟩
    rcases hP.2 with ⟨s0, rest, hrest⟩
    rcases upcNext_head tasks p us hrest with ⟨rest2, h2 | h2⟩
    · exact ⟨s0, rest2, h2⟩
    · exact ⟨"COMPLETE", rest2, h2⟩
  · intro p us hP
    refine ⟨updNext_uniq tasks p us hP.1, ?_⟩
    rcases hP.2 with ⟨s0, rest, hrest⟩
    rcases updNext_head tasks p us hrest with ⟨rest2, h2 | h2⟩
    · exact ⟨s0, rest2, h2⟩
    · exact ⟨"DONE", rest2, h2⟩
  · intro s1
    exact ⟨by simp [UniqUpd], s1, [], rfl⟩

/-! ### Claim theorems -/

/-- C10: for every task snapshot, changed task and new status, every entry
of a terminating `propagateStatusChange` run other than the first (seed)
entry has status exactly `COMPLETE` or exactly `DONE`. -/
theorem c10_cascade_only_complete_or_done :
    ∀ (fuel : Nat) (tasks : List Task) (i : Int) (s : String)
      (us' : List StatusUpdate),
      propagateStatusChange fuel tasks i s = some us' →
      ∀ u ∈ us'.tail, u.status = "COMPLETE" ∨ u.status = "DONE" := by
  intro fuel tasks i s us' h
  exact psc_tailCD h

/-- Witness for C10 at Scenario B: the cascaded entry `{1, COMPLETE}`. -/
theorem c10_witness :
    (⟨1, "COMPLETE"⟩ : StatusUpdate).status = "COMPLETE" ∨
      (⟨1, "COMPLETE"⟩ : StatusUpdate).status = "DONE" :=
  c10_cascade_only_complete_or_done 10 scenarioB 2 "DONE"
    [⟨2, "COMPLETE"⟩, ⟨1, "COMPLETE"⟩] (by rfl) ⟨1, "COMPLETE"⟩ (by decide)

/-- C4 fails as stated: the seed update itself may set a stored-`COMPLETE`
task to `IN PROGRESS` (it records the caller's own change, not a cascade). -/
theorem c4_counterexample :
    propagateStatusChange 5 completeRoot 1 "IN PROGRESS" =
      some [⟨1, "IN PROGRESS"⟩] ∧
    lookupTask completeRoot 1 = some ⟨1, "COMPLETE", none⟩ :=
  ⟨by rfl, by rfl⟩

/-- C4 (amended): no CASCADED update (entry other than the seed) ever sets
a stored-`COMPLETE` task to `IN PROGRESS`. -/
theorem c4_never_complete_to_in_progress :
    ∀ (fuel : Nat) (tasks : List Task) (i : Int) (s : String)
      (us' : List StatusUpdate),
      propagateStatusChange fuel tasks i s = some us' →
      ∀ u ∈ us'.tail, ∀ t, lookupTask tasks u.id = some t →
        t.status = "COMPLETE" → u.status ≠ "IN PROGRESS" := by
  intro fuel tasks i s us' h u hu t _ _
  rcases psc_tailCD h u hu with h2 | h2 <;> rw [h2] <;> decide

/-- Witness for C4 (amended) at Scenario D: the cascaded `{10, DONE}`
entry on the stored-`COMPLETE` task 10 is not `IN PROGRESS`. -/
theorem c4_witness :
    (⟨10, "DONE"⟩ : StatusUpdate).status ≠ "IN PROGRESS" :=
  c4_never_complete_to_in_progress 10 scenarioD 11 "IN PROGRESS"
    [⟨11, "IN PROGRESS"⟩, ⟨10, "DONE"⟩] (by rfl) ⟨10, "DONE"⟩ (by decide)
    ⟨10, "COMPLETE", some 9⟩ (by rfl) (by rfl)

/-- C9: under the data-model invariant that no task is its own parent, a
terminating `propagateStatusChange` run queues at most one update per
distinct task id, and when the changed task exists its first entry is the
(possibly adjusted) seed `{changedTaskId, _}`; an absent changed task
yields the empty list. -/
theorem c9_unique_updates_and_seed_first :
    ∀ (fuel : Nat) (tasks : List Task) (i : Int) (s : String)
      (us' : List StatusUpdate),
      NoSelfParent tasks →
      propagateStatusChange fuel tasks i s = some us' →
      (us'.map StatusUpdate.id).Nodup ∧
      (∀ t, lookupTask tasks i = some t → ∃ s0 rest, us' = ⟨i, s0⟩ :: rest) ∧
      (lookupTask tasks i = none → us' = []) := by
  intro fuel tasks i s us' hsp h
  cases hlk : lookupTask tasks i with
  | none =>
    rw [psc_nil hlk] at h
    cases h
    exact ⟨by simp, fun t ht => absurd ht (by simp), fun _ => rfl⟩
  | some t =>
    rcases psc_uniq_head hsp hlk h with ⟨h1, h2⟩
    exact ⟨h1, fun _ _ => h2, fun hn => absurd hn (by simp)⟩

/-- Witness for C9 at Scenario B: distinct update ids, seed-first shape. -/
theorem c9_witness :
    (([⟨2, "COMPLETE"⟩, ⟨1, "COMPLETE"⟩] : List StatusUpdate).map
      StatusUpdate.id).Nodup ∧
    ∃ s0 rest, ([⟨2, "COMPLETE"⟩, ⟨1, "COMPLETE"⟩] : List StatusUpdate) =
      ⟨2, s0⟩ :: rest := by
  have h := c9_unique_updates_and_seed_first 10 scenarioB 2 "DONE"
    [⟨2, "COMPLETE"⟩, ⟨1, "COMPLETE"⟩]
    ((by decide) : ∀ t ∈ scenarioB, t.parentId ≠ some t.id) (by rfl)
  exact ⟨h.1, h.2.1 ⟨2, "DONE", some 1⟩ (by rfl)⟩

/-- C6: `wouldCreateCircularDependency(T, x, x)` reports a cycle for every
present id `x` (the source and spec treat `0`/`null` as an absent id and
return `false` before the self-parent check). -/
theorem c6_self_parent_rejected :
    ∀ (fuel : Nat) (tasks : List Task) (x : Int), x ≠ 0 →
      wouldCreateCircularDependency fuel tasks (some x) (some x) = some true := by
  intro fuel tasks x hx
  simp [wouldCreateCircularDependency, hx]

/-- Witness for C6 at `x = 5` on the Scenario B snapshot. -/
theorem c6_witness :
    wouldCreateCircularDependency 3 scenarioB (some 5) (some 5) = some true :=
  c6_self_parent_rejected 3 scenarioB 5 (by decide)

/-! ### Fine-grained lemmas about the child-upgrade fold -/

theorem findUpd_some_mem {us : List StatusUpdate} {i : Int} {u : StatusUpdate}
    (h : findUpd us i = some u) : u ∈ us ∧ u.id = i := by
  rw [findUpd] at h
  exact ⟨List.mem_of_find?_eq_some h, by simpa using List.find?_some h⟩

theorem childPass_ids_sup {c : Task} {st : List StatusUpdate × (Int → Option String)}
    {x : Int} (h : x ∈ st.1.map StatusUpdate.id) :
    x ∈ (childPass c st).1.map StatusUpdate.id := by
  rw [childPass]
  by_cases hs : orStored (st.2 c.id) c.status = "DONE"
  · rw [if_pos hs]
    cases hf : findUpd st.1 c.id with
    | some u => simp only [setFirst_map_id]; exact h
    | none =>
      simp only [List.map_append]
      exact List.mem_append.mpr (Or.inl h)
  · rw [if_neg hs]
    exact h

theorem upcFold_uniq {tasks : List Task} {p : Int} {us : List StatusUpdate}
    (h : UniqUpd us) :
    UniqUpd ((getTaskChildren tasks p).foldl (fun st c => childPass c st)
      (us, lastStatus us)).1 :=
  upcFold_inv (fun st => UniqUpd st.1) h (fun _ _ _ hP => childPass_uniq hP)

theorem upcFold_ids_sup {tasks : List Task} {p : Int} {us : List StatusUpdate}
    {x : Int} (h : x ∈ us.map StatusUpdate.id) :
    x ∈ ((getTaskChildren tasks p).foldl (fun st c => childPass c st)
      (us, lastStatus us)).1.map StatusUpdate.id :=
  upcFold_inv (fun st => x ∈ st.1.map StatusUpdate.id) h
    (fun _ _ _ hP => childPass_ids_sup hP)

theorem childPass_keeps_q {d : Task} {st : List StatusUpdate × (Int → Option String)}
    {cid : Int} {base : Option String}
    (hP : (lastStatus st.1 cid = some "COMPLETE" ∨ st.2 cid = base) ∧ UniqUpd st.1) :
    lastStatus (childPass d st).1 cid = some "COMPLETE" ∨
      (childPass d st).2 cid = base := by
  rw [childPass]
  by_cases hd : orStored (st.2 d.id) d.status = "DONE"
  · rw [if_pos hd]
    by_cases hdc : d.id = cid
    · refine Or.inl ?_
      cases hf : findUpd st.1 d.id with
      | some u =>
        simp only []
        rcases findUpd_some_mem hf with ⟨hm, hid⟩
        rw [hdc]
        exact lastStatus_setFirst_self hP.2 ⟨u, hm, by rw [hid, hdc]⟩
      | none =>
        simp only []
        rw [lastStatus_append_single, if_pos hdc]
    · cases hf : findUpd st.1 d.id with
      | some u =>
        rcases hP.1 with h1 | h1
        · exact Or.inl (by rw [lastStatus_setFirst_ne (fun h2 => hdc h2.symm)]; exact h1)
        · refine Or.inr ?_
          simp only []
          rw [if_neg (fun h2 => hdc h2.symm)]
          exact h1
      | none =>
        rcases hP.1 with h1 | h1
        · refine Or.inl ?_
          rw [lastStatus_append_single, if_neg hdc]
          exact h1
        · refine Or.inr ?_
          simp only []
          rw [if_neg (fun h2 => hdc h2.symm)]
          exact h1
  · rw [if_neg hd]
    exact hP.1

theorem upcFold_done_child {tasks : List Task} {p : Int} {us : List StatusUpdate}
    {c : Task} (hu : UniqUpd us) (hc : c ∈ getTaskChildren tasks p)
    (heff : orStored (lastStatus us c.id) c.status = "DONE") :
    lastStatus ((getTaskChildren tasks p).foldl (fun st c => childPass c st)
      (us, lastStatus us)).1 c.id = some "COMPLETE" := by
  rcases List.append_of_mem hc with ⟨l1, l2, hsplit⟩
  rw [hsplit, List.foldl_append]
  have hQ : (lastStatus (l1.foldl (fun st c => childPass c st)
      (us, lastStatus us)).1 c.id = some "COMPLETE" ∨
      (l1.foldl (fun st c => childPass c st) (us, lastStatus us)).2 c.id =
        lastStatus us c.id) ∧
      UniqUpd (l1.foldl (fun st c => childPass c st) (us, lastStatus us)).1 := by
    refine foldl_induction (fun st c => childPass c st)
      (fun st : List StatusUpdate × (Int → Option String) =>
      (lastStatus st.1 c.id = some "COMPLETE" ∨ st.2 c.id = lastStatus us c.id) ∧
        UniqUpd st.1) l1 (us, lastStatus us) ⟨Or.inr rfl, hu⟩ ?_
    intro st d _ hP
    exact ⟨childPass_keeps_q hP, childPass_uniq hP.2⟩
  rw [List.foldl_cons]
  have hR : lastStatus (childPass c (l1.foldl (fun st c => childPass c st)
      (us, lastStatus us))).1 c.id = some "COMPLETE" := by
    generalize hst : l1.foldl (fun st c => childPass c st) (us, lastStatus us) = st1 at hQ
    rw [childPass]
    by_cases hw : orStored (st1.2 c.id) c.status = "DONE"
    · rw [if_pos hw]
      cases hf : findUpd st1.1 c.id with
      | some u =>
        simp only []
        rcases findUpd_some_mem hf with ⟨hm, hid⟩
        exact lastStatus_setFirst_self hQ.2 ⟨u, hm, hid⟩
      | none =>
        simp only []
        rw [lastStatus_append_single, if_pos rfl]
    · rw [if_neg hw]
      rcases hQ.1 with h1 | h1
      · exact h1
      · rw [h1] at hw
        exact absurd heff hw
  refine foldl_induction (fun st c => childPass c st)
    (fun st : List StatusUpdate × (Int → Option String) =>
      lastStatus st.1 c.id = some "COMPLETE") l2 _ hR ?_
  intro st d _ hP
  rcases @childPass_writeonly d st c.id with h2 | h2
  · rw [h2]; exact hP
  · exact h2

theorem runUp_succ {next : Int → List StatusUpdate → List StatusUpdate × Option Int}
    {fuel : Nat} {p : Int} {us : List StatusUpdate} :
    runUp next (fuel + 1) p us =
      (match next p us with
       | (us2, some gp) => runUp next fuel gp us2
       | (us2, none) => some us2) := rfl

theorem runUp_step {next : Int → List StatusUpdate → List StatusUpdate × Option Int}
    {fuel : Nat} {p : Int} {us us' : List StatusUpdate}
    (h : runUp next (fuel + 1) p us = some us') :
    ((next p us).2 = none ∧ us' = (next p us).1) ∨
    (∃ gp, (next p us).2 = some gp ∧
      runUp next fuel gp (next p us).1 = some us') := by
  rw [runUp_succ] at h
  cases hn : next p us with
  | mk a b =>
    rw [hn] at h
    cases b with
    | none =>
      refine Or.inl ⟨rfl, ?_⟩
      have h2 : some a = some us' := h
      exact (Option.some.inj h2).symm
    | some gp =>
      exact Or.inr ⟨gp, rfl, h⟩

/-- C1: upward-COMPLETE propagation.  (1) A parent with zero direct
children halts with the updates unchanged.  (2) If some child's effective
status (stored status merged with any already-queued update) is neither
`DONE` nor `COMPLETE`, propagation halts at that level with the updates
unchanged.  (3) If the parent exists and every child qualifies, a
terminating run queues every effectively-`DONE` child to `COMPLETE` and
queues the parent itself to `COMPLETE` regardless of its current status,
recursion into the parent's own parent never undoing either (under the
data-model invariants: no self-parent, at most one queued update per id).
(4) Scenario B from the spec: child 2 `DONE` while sibling 3 is `COMPLETE`
yields `[{2,'COMPLETE'}, {1,'COMPLETE'}]`. -/
theorem c1_upward_complete_propagation :
    (∀ (fuel : Nat) (tasks : List Task) (p : Int) (us : List StatusUpdate),
      getTaskChildren tasks p = [] →
      propagateUpwardsComplete tasks (fuel + 1) p us = some us) ∧
    (∀ (fuel : Nat) (tasks : List Task) (p : Int) (us : List StatusUpdate)
      (c : Task), c ∈ getTaskChildren tasks p →
      ¬ (effStatus us c = "DONE" ∨ effStatus us c = "COMPLETE") →
      propagateUpwardsComplete tasks (fuel + 1) p us = some us) ∧
    (∀ (fuel : Nat) (tasks : List Task) (p : Int) (us us' : List StatusUpdate)
      (parent : Task),
      NoSelfParent tasks → UniqUpd us →
      lookupTask tasks p = some parent →
      getTaskChildren tasks p ≠ [] →
      (∀ c ∈ getTaskChildren tasks p,
        effStatus us c = "DONE" ∨ effStatus us c = "COMPLETE") →
      propagateUpwardsComplete tasks fuel p us = some us' →
      lastStatus us' p = some "COMPLETE" ∧
      (∀ c ∈ getTaskChildren tasks p, effStatus us c = "DONE" →
        lastStatus us' c.id = some "COMPLETE")) ∧
    propagateStatusChange 10 scenarioB 2 "DONE" =
      some [⟨2, "COMPLETE"⟩, ⟨1, "COMPLETE"⟩] := by
  refine ⟨?_, ?_, ?_, by rfl⟩
  · intro fuel tasks p us h
    simp [propagateUpwardsComplete, runUp_succ, upcNext_halt_no_children h]
  · intro fuel tasks p us c hc hs
    simp [propagateUpwardsComplete, runUp_succ, upcNext_halt_not_all hc hs]
  · intro fuel tasks p us us' parent hsp hu hlk hne hall h
    cases fuel with
    | zero => rw [propagateUpwardsComplete, runUp] at h; exact absurd h (by simp)
    | succ n =>
      rw [propagateUpwardsComplete] at h
      have h1c : (upcNext tasks p us).1 =
          (match findUpd us p with
           | some _ => setFirst ((getTaskChildren tasks p).foldl
               (fun st c => childPass c st) (us, lastStatus us)).1 p "COMPLETE"
           | none => ((getTaskChildren tasks p).foldl
               (fun st c => childPass c st) (us, lastStatus us)).1 ++
                 [⟨p, "COMPLETE"⟩]) := by
        rw [upcNext_qualify hlk hne hall]
      have hA : lastStatus
          (match findUpd us p with
           | some _ => setFirst ((getTaskChildren tasks p).foldl
               (fun st c => childPass c st) (us, lastStatus us)).1 p "COMPLETE"
           | none => ((getTaskChildren tasks p).foldl
               (fun st c => childPass c st) (us, lastStatus us)).1 ++
                 [⟨p, "COMPLETE"⟩]) p = some "COMPLETE" := by
        cases hf : findUpd us p with
        | some u =>
          simp only []
          rcases findUpd_some_mem hf with ⟨hm, hid⟩
          have hp1 : p ∈ us.map StatusUpdate.id :=
            List.mem_map.mpr ⟨u, hm, hid⟩
          rcases List.mem_map.mp (@upcFold_ids_sup tasks p us p hp1)
            with ⟨v, hv, hvid⟩
          exact lastStatus_setFirst_self (upcFold_uniq hu) ⟨v, hv, hvid⟩
        | none =>
          simp only []
          rw [lastStatus_append_single, if_pos rfl]
      have hB : ∀ c ∈ getTaskChildren tasks p, effStatus us c = "DONE" →
          lastStatus
            (match findUpd us p with
             | some _ => setFirst ((getTaskChildren tasks p).foldl
                 (fun st c => childPass c st) (us, lastStatus us)).1 p "COMPLETE"
             | none => ((getTaskChildren tasks p).foldl
                 (fun st c => childPass c st) (us, lastStatus us)).1 ++
                   [⟨p, "COMPLETE"⟩]) c.id = some "COMPLETE" := by
        intro c hc heff
        have hcp : c.id ≠ p := by
          intro h2
          rcases mem_getTaskChildren.mp hc with ⟨hcm, hcpar⟩
          exact (hsp c hcm) (by rw [hcpar, h2])
        cases hf : findUpd us p with
        | some u =>
          simp only []
          rw [lastStatus_setFirst_ne hcp]
          exact upcFold_done_child hu hc heff
        | none =>
          simp only []
          rw [lastStatus_append_single, if_neg (fun h2 => hcp h2.symm)]
          exact upcFold_done_child hu hc heff
      have hstep : ∀ (p2 : Int) (v : List StatusUpdate),
          (lastStatus v p = some "COMPLETE" ∧
            ∀ c ∈ getTaskChildren tasks p, effStatus us c = "DONE" →
              lastStatus v c.id = some "COMPLETE") →
          (lastStatus (upcNext tasks p2 v).1 p = some "COMPLETE" ∧
            ∀ c ∈ getTaskChildren tasks p, effStatus us c = "DONE" →
              lastStatus (upcNext tasks p2 v).1 c.id = some "COMPLETE") := by
        intro p2 v hP
        constructor
        · rcases upcNext_writeonly tasks p2 v p with h2 | h2
          · rw [h2]; exact hP.1
          · exact h2
        · intro c hc heff
          rcases upcNext_writeonly tasks p2 v c.id with h2 | h2
          · rw [h2]; exact hP.2 c hc heff
          · exact h2
      rcases runUp_step h with ⟨_, rfl⟩ | ⟨gp, _, hrec⟩
      · rw [h1c]
        exact ⟨hA, hB⟩
      · rw [h1c] at hrec
        exact runUp_climb (upcNext tasks) _ hstep n gp _ us' hrec ⟨hA, hB⟩

/-- Witness for C1 (qualifying case) on Scenario B: both the parent 1 and
the effectively-`DONE` child 2 end up queued `COMPLETE`. -/
theorem c1_witness :
    lastStatus [⟨2, "COMPLETE"⟩, ⟨1, "COMPLETE"⟩] 1 = some "COMPLETE" ∧
    lastStatus [⟨2, "COMPLETE"⟩, ⟨1, "COMPLETE"⟩] 2 = some "COMPLETE" := by
  have h := c1_upward_complete_propagation.2.2.1 5 scenarioB 1 [⟨2, "DONE"⟩]
    [⟨2, "COMPLETE"⟩, ⟨1, "COMPLETE"⟩] ⟨1, "IN PROGRESS", none⟩
    ((by decide) : ∀ t ∈ scenarioB, t.parentId ≠ some t.id)
    ((by decide) : (([⟨2, "DONE"⟩] : List StatusUpdate).map StatusUpdate.id).Nodup)
    (by rfl) (by decide)
    ((by decide) : ∀ c ∈ getTaskChildren scenarioB 1,
      effStatus [⟨2, "DONE"⟩] c = "DONE" ∨ effStatus [⟨2, "DONE"⟩] c = "COMPLETE")
    (by rfl)
  exact ⟨h.1, h.2 ⟨2, "DONE", some 1⟩ (by decide) (by rfl)⟩

/-- C3: the `IN PROGRESS` branch.  (1) `propagateStatusChange(T, i,
'IN PROGRESS')` records the seed and hands off to downward reversion from
the parent exactly when the changed task has a truthy parent.  (2) An
ancestor whose effective status (queued update merged over stored) is
`DONE` or `IN PROGRESS` is left untouched and nothing beyond it is
updated: the run returns the updates unchanged.  (3) An effectively
`COMPLETE` ancestor is queued to `DONE` by a terminating run (under at
most one queued update per id).  (4) Scenario D: `[{11,'IN PROGRESS'},
{10,'DONE'}]`, task 9 untouched. -/
theorem c3_in_progress_reversion :
    (∀ (fuel : Nat) (tasks : List Task) (i : Int) (t : Task),
      lookupTask tasks i = some t →
      ((∀ p, t.parentId = some p → p ≠ 0 →
        propagateStatusChange fuel tasks i "IN PROGRESS" =
          propagateUpwardsDone tasks fuel p [⟨i, "IN PROGRESS"⟩]) ∧
       ((t.parentId = none ∨ t.parentId = some 0) →
        propagateStatusChange fuel tasks i "IN PROGRESS" =
          some [⟨i, "IN PROGRESS"⟩]))) ∧
    (∀ (fuel : Nat) (tasks : List Task) (p : Int) (us : List StatusUpdate)
      (parent : Task), lookupTask tasks p = some parent →
      (orStored ((findUpd us p).map StatusUpdate.status) parent.status = "DONE" ∨
       orStored ((findUpd us p).map StatusUpdate.status) parent.status =
         "IN PROGRESS") →
      propagateUpwardsDone tasks (fuel + 1) p us = some us) ∧
    (∀ (fuel : Nat) (tasks : List Task) (p : Int) (us us' : List StatusUpdate)
      (parent : Task), UniqUpd us → lookupTask tasks p = some parent →
      orStored ((findUpd us p).map StatusUpdate.status) parent.status =
        "COMPLETE" →
      propagateUpwardsDone tasks fuel p us = some us' →
      lastStatus us' p = some "DONE") ∧
    propagateStatusChange 10 scenarioD 11 "IN PROGRESS" =
      some [⟨11, "IN PROGRESS"⟩, ⟨10, "DONE"⟩] := by
  refine ⟨?_, ?_, ?_, by rfl⟩
  · intro fuel tasks i t ht
    constructor
    · intro p hpp hp
      rw [psc_inprogress ht, hpp]
      simp [hp]
    · intro hor
      rcases hor with hpp | hpp
      · rw [psc_inprogress ht, hpp]
      · rw [psc_inprogress ht, hpp]
        simp
  · intro fuel tasks p us parent hlk hor
    have hcur : orStored ((findUpd us p).map StatusUpdate.status) parent.status ≠
        "COMPLETE" := by
      rcases hor with h2 | h2 <;> rw [h2] <;> decide
    have hhalt : updNext tasks p us = (us, none) :=
      updNext_halt (by intro q hq; rw [hlk] at hq; cases hq; exact hcur)
    simp [propagateUpwardsDone, runUp_succ, hhalt]
  · intro fuel tasks p us us' parent hu hlk hcur h
    cases fuel with
    | zero => rw [propagateUpwardsDone, runUp] at h; exact absurd h (by simp)
    | succ n =>
      rw [propagateUpwardsDone] at h
      have h1c : (updNext tasks p us).1 =
          (match findUpd us p with
           | some _ => setFirst us p "DONE"
           | none => us ++ [⟨p, "DONE"⟩]) := by
        rw [updNext_complete hlk hcur]
      have hA : lastStatus
          (match findUpd us p with
           | some _ => setFirst us p "DONE"
           | none => us ++ [⟨p, "DONE"⟩]) p = some "DONE" := by
        cases hf : findUpd us p with
        | some u =>
          simp only []
          rcases findUpd_some_mem hf with ⟨hm, hid⟩
          exact lastStatus_setFirst_self hu ⟨u, hm, hid⟩
        | none =>
          simp only []
          rw [lastStatus_append_single, if_pos rfl]
      have hstep : ∀ (p2 : Int) (v : List StatusUpdate),
          lastStatus v p = some "DONE" →
          lastStatus (updNext tasks p2 v).1 p = some "DONE" := by
        intro p2 v hP
        rcases updNext_writeonly tasks p2 v p with h2 | h2
        · rw [h2]; exact hP
        · exact h2
      rcases runUp_step h with ⟨_, rfl⟩ | ⟨gp, _, hrec⟩
      · rw [h1c]
        exact hA
      · rw [h1c] at hrec
        exact runUp_climb (updNext tasks)
          (fun v => lastStatus v p = some "DONE") hstep n gp _ us' hrec hA

/-- Witness for C3 (reversion case) on Scenario D: the `COMPLETE` parent
10 is queued to `DONE`. -/
theorem c3_witness :
    lastStatus [⟨11, "IN PROGRESS"⟩, ⟨10, "DONE"⟩] 10 = some "DONE" :=
  c3_in_progress_reversion.2.2.1 5 scenarioD 10 [⟨11, "IN PROGRESS"⟩]
    [⟨11, "IN PROGRESS"⟩, ⟨10, "DONE"⟩] ⟨10, "COMPLETE", some 9⟩
    ((by decide) : (([⟨11, "IN PROGRESS"⟩] : List StatusUpdate).map
      StatusUpdate.id).Nodup)
    (by rfl) (by rfl) (by rfl)

theorem psc_preserve_seed_noip {tasks : List Task} {i : Int} {s : String}
    {fuel : Nat} {t : Task} {us' : List StatusUpdate}
    (P : List StatusUpdate → Prop)
    (h1 : ∀ p us, P us → P (upcNext tasks p us).1)
    (hs : s ≠ "IN PROGRESS")
    (ht : lookupTask tasks i = some t)
    (h0 : P [⟨i, if (decide (s = "DONE") && (!(getTaskChildren tasks i).isEmpty) &&
      (getTaskChildren tasks i).all (fun c => decide (c.status = "COMPLETE")) : Bool)
        then "COMPLETE" else s⟩])
    (h : propagateStatusChange fuel tasks i s = some us') : P us' := by
  simp only [propagateStatusChange, ht] at h
  rcases Option.bind_eq_some.mp h with ⟨us1, hr1, h3⟩
  rcases Option.bind_eq_some.mp h3 with ⟨us2, hr2, h4⟩
  have hrun1 : ∀ p usA usB, propagateUpwardsComplete tasks fuel p usA = some usB →
      P usA → P usB := by
    intro p usA usB hAB hPA
    exact runUp_climb (upcNext tasks) P h1 fuel p usA usB hAB hPA
  have hP1 : P us1 := ifMatch_some hr1 P hrun1 h0
  have hP2 : P us2 := ifMatch_some hr2 P hrun1 hP1
  have hcond : ¬ ((if (decide (s = "DONE") && (!(getTaskChildren tasks i).isEmpty) &&
      (getTaskChildren tasks i).all (fun c => decide (c.status = "COMPLETE")) : Bool)
        then "COMPLETE" else s) = "IN PROGRESS") := by
    split
    · intro heq; exact absurd heq (by decide)
    · exact hs
  rw [if_neg hcond] at h4
  cases h4
  exact hP2

theorem psc_head {fuel : Nat} {tasks : List Task} {i : Int} {s : String}
    {t : Task} {us' : List StatusUpdate}
    (ht : lookupTask tasks i = some t)
    (h : propagateStatusChange fuel tasks i s = some us') :
    ∃ s0 rest, us' = ⟨i, s0⟩ :: rest := by
  refine psc_preserve (fun us => ∃ s0 rest, us = ⟨i, s0⟩ :: rest) ?_ ?_ ht
    (fun s1 => ⟨s1, [], rfl⟩) h
  · intro p us hP
    rcases hP with ⟨s0, rest, hrest⟩
    rcases upcNext_head tasks p us hrest with ⟨rest2, h2 | h2⟩
    · exact ⟨s0, rest2, h2⟩
    · exact ⟨"COMPLETE", rest2, h2⟩
  · intro p us hP
    rcases hP with ⟨s0, rest, hrest⟩
    rcases updNext_head tasks p us hrest with ⟨rest2, h2 | h2⟩
    · exact ⟨s0, rest2, h2⟩
    · exact ⟨"DONE", rest2, h2⟩

theorem upgradeBool_true {tasks : List Task} {i : Int}
    (hne : getTaskChildren tasks i ≠ [])
    (hall : ∀ c ∈ getTaskChildren tasks i, c.status = "COMPLETE") :
    (decide (("DONE" : String) = "DONE") && (!(getTaskChildren tasks i).isEmpty) &&
      (getTaskChildren tasks i).all (fun c => decide (c.status = "COMPLETE"))) = true := by
  have h1 : (getTaskChildren tasks i).isEmpty = false := by
    cases h : getTaskChildren tasks i with
    | nil => exact absurd h hne
    | cons x xs => rfl
  simp [h1, List.all_eq_true]
  exact hall

theorem upgradeBool_false {tasks : List Task} {i : Int}
    (h : ¬ (getTaskChildren tasks i ≠ [] ∧
      ∀ c ∈ getTaskChildren tasks i, c.status = "COMPLETE")) :
    (decide (("DONE" : String) = "DONE") && (!(getTaskChildren tasks i).isEmpty) &&
      (getTaskChildren tasks i).all (fun c => decide (c.status = "COMPLETE"))) = false := by
  rw [Bool.eq_false_iff]
  intro hb
  rw [Bool.and_eq_true] at hb
  rcases hb with ⟨hb1, hb2⟩
  rw [Bool.and_eq_true] at hb1
  rcases hb1 with ⟨_, hb3⟩
  refine h ⟨?_, ?_⟩
  · intro hnil
    rw [hnil] at hb3
    exact absurd hb3 (by decide)
  · intro c hc
    have h5 := List.all_eq_true.mp hb2 c hc
    simpa using h5

/-- C2: the `DONE` branch of `propagateStatusChange`.  (1) For an existing
changed task a terminating run starts with the seed entry for
`changedTaskId`, and whenever the task has children that are all
effectively `COMPLETE` (their stored status merged with the already-queued
seed update) the first entry carries `COMPLETE`.  (2)/(3) Without a truthy
parent the run returns exactly the (possibly upgraded) seed, upgraded
precisely when the task has children and all their stored statuses are
`COMPLETE`; upward propagation is attempted only through a truthy parent.
(4) Scenario A: `propagateStatusChange(T, 2, 'DONE')` on the all-
`IN PROGRESS` tree returns exactly `[{2,'DONE'}]`. -/
theorem c2_done_branch :
    (∀ (fuel : Nat) (tasks : List Task) (i : Int) (t : Task)
      (us' : List StatusUpdate), lookupTask tasks i = some t →
      propagateStatusChange fuel tasks i "DONE" = some us' →
      (∃ s0 rest, us' = ⟨i, s0⟩ :: rest) ∧
      ((getTaskChildren tasks i ≠ [] ∧
        ∀ c ∈ getTaskChildren tasks i, effStatus [⟨i, "DONE"⟩] c = "COMPLETE") →
       ∃ rest, us' = ⟨i, "COMPLETE"⟩ :: rest)) ∧
    (∀ (fuel : Nat) (tasks : List Task) (i : Int) (t : Task),
      lookupTask tasks i = some t → (t.parentId = none ∨ t.parentId = some 0) →
      (getTaskChildren tasks i ≠ [] ∧
        ∀ c ∈ getTaskChildren tasks i, c.status = "COMPLETE") →
      propagateStatusChange fuel tasks i "DONE" = some [⟨i, "COMPLETE"⟩]) ∧
    (∀ (fuel : Nat) (tasks : List Task) (i : Int) (t : Task),
      lookupTask tasks i = some t → (t.parentId = none ∨ t.parentId = some 0) →
      ¬ (getTaskChildren tasks i ≠ [] ∧
        ∀ c ∈ getTaskChildren tasks i, c.status = "COMPLETE") →
      propagateStatusChange fuel tasks i "DONE" = some [⟨i, "DONE"⟩]) ∧
    propagateStatusChange 10 scenarioA 2 "DONE" = some [⟨2, "DONE"⟩] := by
  refine ⟨?_, ?_, ?_, by rfl⟩
  · intro fuel tasks i t us' ht h
    refine ⟨psc_head ht h, ?_⟩
    intro ⟨hne, heff⟩
    have hall : ∀ c ∈ getTaskChildren tasks i, c.status = "COMPLETE" := by
      intro c hc
      have h2 := heff c hc
      rw [effStatus] at h2
      by_cases hci : c.id = i
      · exfalso
        have h3 : lastStatus [⟨i, "DONE"⟩] c.id = some "DONE" := by
          rw [hci]; simp [lastStatus]
        rw [h3] at h2
        simp [orStored] at h2
      · have h3 : lastStatus [⟨i, "DONE"⟩] c.id = none := by
          rw [lastStatus_eq_none]
          intro u hu
          rw [List.mem_singleton] at hu
          rw [hu]
          intro h4
          exact hci h4.symm
        rw [h3] at h2
        simpa [orStored] using h2
    have hb := upgradeBool_true hne hall
    refine psc_preserve_seed_noip (fun us => ∃ rest, us = ⟨i, "COMPLETE"⟩ :: rest)
      ?_ (by decide) ht ?_ h
    · intro p us hP
      rcases hP with ⟨rest, hrest⟩
      rcases upcNext_head tasks p us hrest with ⟨rest2, h2 | h2⟩
      · exact ⟨rest2, h2⟩
      · exact ⟨rest2, h2⟩
    · rw [hb]
      exact ⟨[], rfl⟩
  · intro fuel tasks i t ht hpp hcond
    rcases hpp with hpp | hpp <;>
      (simp [propagateStatusChange, ht, hpp]; exact ⟨hcond.1, hcond.2⟩)
  · intro fuel tasks i t ht hpp hcond
    rcases hpp with hpp | hpp <;>
      (simp [propagateStatusChange, ht, hpp]
       intro hnn
       have hnB : ¬ ∀ c ∈ getTaskChildren tasks i, c.status = "COMPLETE" :=
         fun hB => hcond ⟨hnn, hB⟩
       push_neg at hnB
       exact hnB)

/-- Witness for C2: a task 1 whose only child 2 is stored `COMPLETE` gets
its seed upgraded to `COMPLETE`. -/
theorem c2_witness :
    ∃ rest, ([⟨1, "COMPLETE"⟩] : List StatusUpdate) = ⟨1, "COMPLETE"⟩ :: rest :=
  (c2_done_branch.1 10 [⟨1, "IN PROGRESS", none⟩, ⟨2, "COMPLETE", some 1⟩] 1
    ⟨1, "IN PROGRESS", none⟩ [⟨1, "COMPLETE"⟩] (by rfl) (by rfl)).2
    ⟨by decide, (by decide : ∀ c ∈ getTaskChildren
      [⟨1, "IN PROGRESS", none⟩, ⟨2, "COMPLETE", some 1⟩] 1,
      effStatus [⟨1, "DONE"⟩] c = "COMPLETE")⟩

/-! ### Graph lemmas for cycle detection and parent reassignment -/

theorem circGo_false {tasks : List Task} {x : Int} :
    ∀ (fuel : Nat) (c : Int) (visited : Finset Int),
      Acyclic tasks →
      (∀ v ∈ visited, Relation.TransGen (Step tasks) v c) →
      circGo tasks x fuel (some c) visited = some false →
      ¬ Relation.ReflTransGen (Step tasks) c x := by
  intro fuel
  induction fuel with
  | zero => intro c visited _ _ h; exact absurd h (by simp [circGo])
  | succ n ih =>
    intro c visited ha hinv h
    rw [circGo] at h
    by_cases hcx : c = x
    · rw [if_pos hcx] at h; exact absurd h (by simp)
    · rw [if_neg hcx] at h
      by_cases hcv : c ∈ visited
      · exact absurd (hinv c hcv) (ha c)
      · rw [if_neg hcv] at h
        cases hp : parentLink tasks c with
        | none =>
          intro hr
          rcases Relation.ReflTransGen.cases_head hr with rfl | ⟨d, hd, _⟩
          · exact hcx rfl
          · rw [Step] at hd; rw [hp] at hd; exact absurd hd (by simp)
        | some d =>
          rw [hp] at h
          have hinv2 : ∀ v ∈ insert c visited,
              Relation.TransGen (Step tasks) v d := by
            intro v hv
            rcases Finset.mem_insert.mp hv with rfl | hv
            · exact Relation.TransGen.single hp
            · exact Relation.TransGen.tail (hinv v hv) hp
          have hnd := ih d (insert c visited) ha hinv2 h
          intro hr
          rcases Relation.ReflTransGen.cases_head hr with rfl | ⟨e, he, hex⟩
          · exact hcx rfl
          · rw [Step] at he; rw [hp] at he
            cases he
            exact hnd hex

theorem wccd_false_no_path {fuel : Nat} {tasks : List Task} {x p : Int}
    (ha : Acyclic tasks) (hx : x ≠ 0) (hp : p ≠ 0)
    (h : wouldCreateCircularDependency fuel tasks (some x) (some p) = some false) :
    ¬ Relation.ReflTransGen (Step tasks) p x := by
  rw [wouldCreateCircularDependency] at h
  rw [if_neg (by simp [hx, hp])] at h
  by_cases hxp : x = p
  · rw [if_pos hxp] at h; exact absurd h (by simp)
  · rw [if_neg hxp] at h
    exact circGo_false fuel p ∅ ha (by simp) h

theorem lookupTask_updateParent {tasks : List Task} {xv : Int}
    {pid : Option Int} {i : Int} :
    lookupTask (updateParent tasks (some xv) pid) i =
      (lookupTask tasks i).map
        (fun t => if t.id = xv then { t with parentId := pid } else t) := by
  induction tasks with
  | nil => rfl
  | cons a ts ih =>
    show lookupTask ((if a.id = xv then { a with parentId := pid } else a) ::
        updateParent ts (some xv) pid) i = _
    have hid : (if a.id = xv then { a with parentId := pid } else a).id = a.id := by
      split <;> rfl
    rw [lookupTask, ih]
    conv_rhs => rw [lookupTask]
    cases hts : lookupTask ts i with
    | some r => simp
    | none =>
      simp only [Option.map_none', hid]
      by_cases hai : a.id = i
      · rw [if_pos hai, if_pos hai]; rfl
      · rw [if_neg hai, if_neg hai]; rfl

theorem parentLink_updateParent {tasks : List Task} {xv : Int}
    {pid : Option Int} {a : Int} :
    parentLink (updateParent tasks (some xv) pid) a =
      (match lookupTask tasks a with
       | none => none
       | some t => if a = xv then pid else t.parentId) := by
  rw [parentLink, lookupTask_updateParent]
  cases hl : lookupTask tasks a with
  | none => rfl
  | some t =>
    have hid : t.id = a := lookupTask_id hl
    simp only [Option.map_some', Option.bind]
    by_cases hax : a = xv
    · rw [if_pos (by rw [hid, hax]), if_pos hax]
    · rw [if_neg (by rw [hid]; exact hax), if_neg hax]

theorem updateParent_zero {tasks : List Task} {pid : Option Int}
    (hpos : PositiveIds tasks) : updateParent tasks (some 0) pid = tasks := by
  induction tasks with
  | nil => rfl
  | cons a ts ih =>
    show (if a.id = 0 then { a with parentId := pid } else a) ::
        updateParent ts (some 0) pid = a :: ts
    have ha : a.id ≠ 0 := by
      have := hpos a (List.mem_cons_self _ _)
      intro h2; rw [h2] at this; exact absurd this (by decide)
    rw [if_neg ha, ih (fun t ht => hpos t (List.mem_cons_of_mem _ ht))]

theorem rtg_to_xv {Tnew tasks : List Task} {xv : Int}
    (hS : ∀ a b, a ≠ xv → Step Tnew a b → Step tasks a b) :
    ∀ {a : Int}, Relation.ReflTransGen (Step Tnew) a xv →
      Relation.ReflTransGen (Step tasks) a xv := by
  intro a h
  induction h using Relation.ReflTransGen.head_induction_on with
  | refl => exact Relation.ReflTransGen.refl
  | head hstep hrest ih =>
    rename_i u c
    by_cases hu : u = xv
    · rw [hu]
    · exact Relation.ReflTransGen.head (hS u c hu hstep) ih

theorem rtg_split {Tnew tasks : List Task} {xv : Int}
    (hS : ∀ a b, a ≠ xv → Step Tnew a b → Step tasks a b) :
    ∀ {a b : Int}, Relation.ReflTransGen (Step Tnew) a b →
      Relation.ReflTransGen (Step tasks) a b ∨
        (Relation.ReflTransGen (Step Tnew) a xv ∧
          Relation.ReflTransGen (Step Tnew) xv b) := by
  intro a b h
  induction h using Relation.ReflTransGen.head_induction_on with
  | refl => exact Or.inl Relation.ReflTransGen.refl
  | head hstep hrest ih =>
    rename_i u c
    by_cases hu : u = xv
    · subst hu
      exact Or.inr ⟨Relation.ReflTransGen.refl,
        Relation.ReflTransGen.head hstep hrest⟩
    · rcases ih with h2 | ⟨h2, h3⟩
      · exact Or.inl (Relation.ReflTransGen.head (hS u c hu hstep) h2)
      · exact Or.inr ⟨Relation.ReflTransGen.head hstep h2, h3⟩

theorem acyclic_of_measure {tasks : List Task} (m : Int → Nat)
    (h : ∀ a b, Step tasks a b → m b < m a) : Acyclic tasks := by
  intro a hcyc
  have hlt : ∀ {x y : Int}, Relation.TransGen (Step tasks) x y → m y < m x := by
    intro x y ht
    induction ht with
    | single h1 => exact h _ _ h1
    | tail _ h2 ih => exact lt_trans (h _ _ h2) ih
  exact lt_irrefl _ (hlt hcyc)

theorem step_chainPair {a b : Int} (h : Step chainPair a b) : a = 2 ∧ b = 1 := by
  by_cases ha2 : a = 2
  · subst ha2
    have hc : parentLink chainPair 2 = some 1 := by decide
    rw [Step] at h
    rw [hc] at h
    exact ⟨rfl, (Option.some.inj h).symm⟩
  · exfalso
    by_cases ha1 : a = 1
    · subst ha1
      have hc : parentLink chainPair 1 = none := by decide
      rw [Step] at h; rw [hc] at h
      exact absurd h (by simp)
    · have hc : lookupTask chainPair a = none := by
        rw [lookupTask_eq_none]
        intro t ht
        rcases List.mem_cons.mp ht with rfl | ht
        · intro h2; exact ha1 h2.symm
        · rcases List.mem_cons.mp ht with rfl | ht
          · intro h2; exact ha2 h2.symm
          · simp at ht
      rw [Step, parentLink, hc] at h
      exact absurd h (by simp)

theorem acyclic_chainPair : Acyclic chainPair := by
  refine acyclic_of_measure (fun a => if a = 2 then 1 else 0) ?_
  intro a b hs
  rcases step_chainPair hs with ⟨rfl, rfl⟩
  decide

/-- C5: if the cycle detector approves a parent reassignment on an acyclic
snapshot (with positive task ids, per the data model), the reassigned
snapshot is still acyclic. -/
theorem c5_acyclicity_preservation :
    ∀ (fuel : Nat) (tasks : List Task) (taskId parentId : Option Int),
      Acyclic tasks → PositiveIds tasks →
      wouldCreateCircularDependency fuel tasks taskId parentId = some false →
      Acyclic (updateParent tasks taskId parentId) := by
  intro fuel tasks taskId parentId ha hpos h
  cases taskId with
  | none => exact ha
  | some xv =>
    by_cases hxv : xv = 0
    · subst hxv
      rw [updateParent_zero hpos]
      exact ha
    · set Tnew := updateParent tasks (some xv) parentId with hT
      have hS : ∀ a b, a ≠ xv → Step Tnew a b → Step tasks a b := by
        intro a b hax hstep
        rw [Step] at hstep ⊢
        rw [hT, parentLink_updateParent] at hstep
        cases hl : lookupTask tasks a with
        | none => rw [hl] at hstep; exact absurd hstep (by simp)
        | some t =>
          rw [hl] at hstep
          have hstep2 : (if a = xv then parentId else t.parentId) = some b := hstep
          rw [if_neg hax] at hstep2
          rw [parentLink, hl]
          exact hstep2
      have hSx : ∀ b, Step Tnew xv b → parentId = some b := by
        intro b hstep
        rw [Step, hT, parentLink_updateParent] at hstep
        cases hl : lookupTask tasks xv with
        | none => rw [hl] at hstep; exact absurd hstep (by simp)
        | some t =>
          rw [hl] at hstep
          have hstep2 : (if xv = xv then parentId else t.parentId) = some b := hstep
          rw [if_pos rfl] at hstep2
          exact hstep2
      have hxvcyc : ¬ Relation.TransGen (Step Tnew) xv xv := by
        intro hcyc
        rcases Relation.TransGen.head'_iff.mp hcyc with ⟨m, hxm, hmx⟩
        have hpm := hSx m hxm
        have hmxR : Relation.ReflTransGen (Step tasks) m xv := rtg_to_xv hS hmx
        by_cases hm0 : m = 0
        · subst hm0
          rcases Relation.ReflTransGen.cases_head hmxR with h0 | ⟨d, hd, _⟩
          · exact hxv h0.symm
          · rw [Step, parentLink] at hd
            cases hl : lookupTask tasks 0 with
            | none => rw [hl] at hd; exact absurd hd (by simp)
            | some t =>
              have hpt := hpos t (lookupTask_mem hl)
              rw [lookupTask_id hl] at hpt
              exact absurd hpt (by decide)
        · by_cases hxm2 : xv = m
          · rw [hpm] at h
            rw [wouldCreateCircularDependency] at h
            rw [if_neg (by simp [hxv, hm0])] at h
            rw [if_pos hxm2] at h
            exact absurd h (by simp)
          · rw [hpm] at h
            exact wccd_false_no_path ha hxv hm0 h hmxR
      intro z hcyc
      rcases Relation.TransGen.head'_iff.mp hcyc with ⟨m, hzm, hmz⟩
      by_cases hz : z = xv
      · subst hz; exact hxvcyc hcyc
      · have hzmR : Step tasks z m := hS z m hz hzm
        rcases rtg_split hS hmz with h2 | ⟨h2, h3⟩
        · exact ha z (Relation.TransGen.head' hzmR h2)
        · exact hxvcyc (Relation.TransGen.trans_left
            (Relation.TransGen.tail' h3 hzm) h2)

/-- Witness for C5 on the two-task chain: reassigning 2 under 1 is
approved and keeps the snapshot acyclic. -/
theorem c5_witness : Acyclic (updateParent chainPair (some 2) (some 1)) :=
  c5_acyclicity_preservation 5 chainPair (some 2) (some 1) acyclic_chainPair
    ((by decide) : ∀ t ∈ chainPair, 0 < t.id) (by decide)

/-! ### Membership characterisation of the two traversals -/

theorem ancGo_mem {tasks : List Task} :
    ∀ (fuel : Nat) (cur : Option Int) (l : List Int),
      ancGo tasks fuel cur = some l →
      ∀ x, (x ∈ l ↔ ∃ c0, cur = some c0 ∧
        Relation.ReflTransGen (Step tasks) c0 x) := by
  intro fuel
  induction fuel with
  | zero =>
    intro cur l h x
    cases cur with
    | none =>
      cases h
      simp
    | some c => exact absurd h (by simp [ancGo])
  | succ n ih =>
    intro cur l h x
    cases cur with
    | none =>
      cases h
      simp
    | some c =>
      rw [ancGo] at h
      rcases Option.map_eq_some'.mp h with ⟨l2, hl2, rfl⟩
      constructor
      · intro hx
        rcases List.mem_cons.mp hx with rfl | hx
        · exact ⟨x, rfl, Relation.ReflTransGen.refl⟩
        · rcases (ih _ _ hl2 x).mp hx with ⟨c0, hc0, hrtg⟩
          refine ⟨c, rfl, ?_⟩
          exact Relation.ReflTransGen.head (by rw [Step, hc0]) hrtg
      · intro ⟨c0, hc0, hrtg⟩
        cases hc0
        rcases Relation.ReflTransGen.cases_head hrtg with rfl | ⟨d, hd, hdx⟩
        · exact List.mem_cons_self _ _
        · rw [Step] at hd
          refine List.mem_cons_of_mem _ ?_
          exact (ih _ _ hl2 x).mpr ⟨d, hd, hdx⟩

theorem getTaskAncestors_mem {tasks : List Task} {fuel : Nat} {b : Int}
    {anc : List Int} (h : getTaskAncestors fuel tasks b = some anc) :
    ∀ x, (x ∈ anc ↔ Relation.TransGen (Step tasks) b x) := by
  intro x
  rw [getTaskAncestors] at h
  rw [ancGo_mem fuel _ anc h x, Relation.TransGen.head'_iff]
  constructor
  · intro ⟨c0, hc0, hrtg⟩
    exact ⟨c0, hc0, hrtg⟩
  · intro ⟨c0, hc0, hrtg⟩
    exact ⟨c0, hc0, hrtg⟩

theorem getTaskDescendants_mem {tasks : List Task} (hu : UniqueIds tasks) :
    ∀ (fuel : Nat) (i : Int) (l : List Int),
      getTaskDescendants tasks fuel i = some l →
      ∀ x, (x ∈ l ↔ Relation.TransGen (Step tasks) x i) := by
  intro fuel
  induction fuel with
  | zero => intro i l h; exact absurd h (by simp [getTaskDescendants])
  | succ n ih =>
    intro i l h x
    rw [getTaskDescendants] at h
    have hInner : ∀ (cs : List Task) (l2 : List Int),
        (cs.foldr (fun c acc => do
          let d ← getTaskDescendants tasks n c.id
          let rest ← acc
          pure (c.id :: (d ++ rest))) (some []) = some l2) →
        ∀ y, (y ∈ l2 ↔ ∃ c ∈ cs, y = c.id ∨
          Relation.TransGen (Step tasks) y c.id) := by
      intro cs
      induction cs with
      | nil =>
        intro l2 h2 y
        cases h2
        simp
      | cons c cs2 ih2 =>
        intro l2 h2 y
        rw [List.foldr_cons] at h2
        rcases Option.bind_eq_some.mp h2 with ⟨d, hd, h3⟩
        rcases Option.bind_eq_some.mp h3 with ⟨rest, hrest, h4⟩
        cases h4
        constructor
        · intro hy
          rcases List.mem_cons.mp hy with rfl | hy
          · exact ⟨c, List.mem_cons_self _ _, Or.inl rfl⟩
          · rcases List.mem_append.mp hy with hy | hy
            · exact ⟨c, List.mem_cons_self _ _, Or.inr ((ih _ _ hd y).mp hy)⟩
            · rcases (ih2 rest hrest y).mp hy with ⟨c2, hc2, hor⟩
              exact ⟨c2, List.mem_cons_of_mem _ hc2, hor⟩
        · intro ⟨c2, hc2, hor⟩
          rcases List.mem_cons.mp hc2 with rfl | hc2
          · rcases hor with rfl | htg
            · exact List.mem_cons_self _ _
            · refine List.mem_cons_of_mem _ (List.mem_append.mpr (Or.inl ?_))
              exact (ih _ _ hd y).mpr htg
          · refine List.mem_cons_of_mem _ (List.mem_append.mpr (Or.inr ?_))
            exact (ih2 rest hrest y).mpr ⟨c2, hc2, hor⟩
    rw [hInner (getTaskChildren tasks i) l h x]
    constructor
    · intro ⟨c, hc, hor⟩
      rcases mem_getTaskChildren.mp hc with ⟨hcm, hcp⟩
      have hstep : Step tasks c.id i := by
        rw [Step, parentLink, lookupTask_of_mem hu hcm rfl]
        exact hcp
      rcases hor with rfl | htg
      · exact Relation.TransGen.single hstep
      · exact Relation.TransGen.tail htg hstep
    · intro htg
      rcases Relation.TransGen.tail'_iff.mp htg with ⟨m, hxm, hmi⟩
      rw [Step, parentLink] at hmi
      cases hl : lookupTask tasks m with
      | none => rw [hl] at hmi; exact absurd hmi (by simp)
      | some t =>
        rw [hl] at hmi
        have htm : t ∈ tasks := lookupTask_mem hl
        have hti : t.id = m := lookupTask_id hl
        refine ⟨t, mem_getTaskChildren.mpr ⟨htm, hmi⟩, ?_⟩
        rw [hti]
        rcases Relation.reflTransGen_iff_eq_or_transGen.mp hxm with rfl | htg2
        · exact Or.inl rfl
        · exact Or.inr htg2

/-- C7: in a snapshot with unique task ids (data model), whenever both
traversals complete, `b` is among the descendants of `a` exactly when `a`
is among the ancestors of `b`; both sides characterise transitive
parent-chain reachability of `a` from `b`. -/
theorem c7_ancestor_descendant_duality :
    ∀ (fuel1 fuel2 : Nat) (tasks : List Task) (a b : Int)
      (anc dsc : List Int),
      UniqueIds tasks →
      getTaskAncestors fuel1 tasks b = some anc →
      getTaskDescendants tasks fuel2 a = some dsc →
      (b ∈ dsc ↔ a ∈ anc) := by
  intro fuel1 fuel2 tasks a b anc dsc hu hanc hdsc
  rw [getTaskAncestors_mem hanc a,
    getTaskDescendants_mem hu fuel2 a dsc hdsc b]

/-- Witness for C7 on the two-task chain: `2 ∈ descendants(1)` iff
`1 ∈ ancestors(2)`. -/
theorem c7_witness : ((2 : Int) ∈ [(2 : Int)]) ↔ ((1 : Int) ∈ [(1 : Int)]) :=
  c7_ancestor_descendant_duality 5 5 chainPair 1 2 [1] [2]
    ((by decide) : (chainPair.map Task.id).Nodup) (by rfl) (by rfl)

/-! ### Divergence of upward propagation on a cyclic snapshot -/

theorem runUp_succ_rec {next : Int → List StatusUpdate → List StatusUpdate × Option Int}
    {fuel : Nat} {p gp : Int} {us : List StatusUpdate}
    (h : (next p us).2 = some gp) :
    runUp next (fuel + 1) p us = runUp next fuel gp (next p us).1 := by
  rw [runUp_succ]
  cases hn : next p us with
  | mk a b =>
    rw [hn] at h
    have hb : b = some gp := h
    subst hb
    rfl

theorem runUp_succ_halt {next : Int → List StatusUpdate → List StatusUpdate × Option Int}
    {fuel : Nat} {p : Int} {us : List StatusUpdate}
    (h : (next p us).2 = none) :
    runUp next (fuel + 1) p us = some (next p us).1 := by
  rw [runUp_succ]
  cases hn : next p us with
  | mk a b =>
    rw [hn] at h
    have hb : b = none := h
    subst hb
    rfl

theorem upc_cycle_none :
    ∀ (fuel : Nat) (p : Int) (us : List StatusUpdate),
      (p = 1 ∨ p = 2) →
      (∀ i s, lastStatus us i = some s → s = "COMPLETE") →
      runUp (upcNext cyclePair) fuel p us = none := by
  intro fuel
  induction fuel with
  | zero => intro p us _ _; rfl
  | succ n ih =>
    intro p us hp hinv
    have hinv2 : ∀ i s, lastStatus (upcNext cyclePair p us).1 i = some s →
        s = "COMPLETE" := by
      intro i s hls
      rcases upcNext_writeonly cyclePair p us i with h2 | h2
      · rw [h2] at hls; exact hinv i s hls
      · rw [h2] at hls; exact (Option.some.inj hls).symm
    rcases hp with rfl | rfl
    · have hlk : lookupTask cyclePair 1 = some ⟨1, "COMPLETE", some 2⟩ := rfl
      have hch : getTaskChildren cyclePair 1 = [⟨2, "COMPLETE", some 1⟩] := rfl
      have hall : ∀ c ∈ getTaskChildren cyclePair 1,
          effStatus us c = "DONE" ∨ effStatus us c = "COMPLETE" := by
        rw [hch]
        intro c hc
        rw [List.mem_singleton] at hc
        subst hc
        show orStored (lastStatus us 2) "COMPLETE" = "DONE" ∨
          orStored (lastStatus us 2) "COMPLETE" = "COMPLETE"
        cases hls : lastStatus us 2 with
        | none => exact Or.inr rfl
        | some s =>
          have hs := hinv 2 s hls
          subst hs
          exact Or.inr rfl
      have hsnd : (upcNext cyclePair 1 us).2 = some 2 := by
        rw [upcNext_qualify hlk (by rw [hch]; simp) hall]
        rfl
      rw [runUp_succ_rec hsnd]
      exact ih 2 _ (Or.inr rfl) hinv2
    · have hlk : lookupTask cyclePair 2 = some ⟨2, "COMPLETE", some 1⟩ := rfl
      have hch : getTaskChildren cyclePair 2 = [⟨1, "COMPLETE", some 2⟩] := rfl
      have hall : ∀ c ∈ getTaskChildren cyclePair 2,
          effStatus us c = "DONE" ∨ effStatus us c = "COMPLETE" := by
        rw [hch]
        intro c hc
        rw [List.mem_singleton] at hc
        subst hc
        show orStored (lastStatus us 1) "COMPLETE" = "DONE" ∨
          orStored (lastStatus us 1) "COMPLETE" = "COMPLETE"
        cases hls : lastStatus us 1 with
        | none => exact Or.inr rfl
        | some s =>
          have hs := hinv 1 s hls
          subst hs
          exact Or.inr rfl
      have hsnd : (upcNext cyclePair 2 us).2 = some 1 := by
        rw [upcNext_qualify hlk (by rw [hch]; simp) hall]
        rfl
      rw [runUp_succ_rec hsnd]
      exact ih 1 _ (Or.inl rfl) hinv2

/-- C8 fails as stated: on the cyclic snapshot `cyclePair` (two stored-
`COMPLETE` tasks that are each other's parents), `propagateStatusChange`
exceeds every fuel bound — the source recursion
(`propagateUpwardsComplete`, which has no visited set) loops forever. -/
theorem c8_counterexample : PropagateDivergesOnCycle := by
  intro fuel
  have hlk : lookupTask cyclePair 1 = some ⟨1, "COMPLETE", some 2⟩ := rfl
  have h1 : propagateUpwardsComplete cyclePair fuel 2 [⟨1, "COMPLETE"⟩] = none := by
    refine upc_cycle_none fuel 2 [⟨1, "COMPLETE"⟩] (Or.inr rfl) ?_
    intro i s hls
    rcases lastStatus_mem hls with ⟨u, hu, _, hus⟩
    rw [List.mem_singleton] at hu
    rw [← hus, hu]
  have hc1 : ¬ getTaskChildren cyclePair 1 = [] := by decide
  have hcT : (∀ x ∈ getTaskChildren cyclePair 1, x.status = "COMPLETE") = True :=
    eq_true (by decide)
  simp [propagateStatusChange, hlk, hc1, hcT, h1]

/-! ### Termination bounds for the guarded cycle walk -/

theorem mem_parentIdsFinset {tasks : List Task} {t : Task} {q : Int}
    (ht : t ∈ tasks) (hq : t.parentId = some q) : q ∈ parentIdsFinset tasks := by
  induction tasks with
  | nil => simp at ht
  | cons a ts ih =>
    rw [parentIdsFinset, List.foldr_cons]
    rcases List.mem_cons.mp ht with rfl | ht2
    · rw [hq]
      exact Finset.mem_insert_self _ _
    · have hmem := ih ht2
      cases hpp : a.parentId with
      | none => exact hmem
      | some r => exact Finset.mem_insert_of_mem hmem

theorem parentIdsFinset_card {tasks : List Task} :
    (parentIdsFinset tasks).card ≤ tasks.length := by
  induction tasks with
  | nil => simp [parentIdsFinset]
  | cons a ts ih =>
    rw [parentIdsFinset, List.foldr_cons]
    cases hpp : a.parentId with
    | none =>
      show (parentIdsFinset ts).card ≤ ts.length + 1
      exact le_trans ih (Nat.le_succ _)
    | some r =>
      show (insert r (parentIdsFinset ts)).card ≤ ts.length + 1
      exact le_trans (Finset.card_insert_le _ _) (Nat.succ_le_succ ih)

theorem step_mem_parentIdsFinset {tasks : List Task} {a b : Int}
    (h : Step tasks a b) : b ∈ parentIdsFinset tasks := by
  rw [Step, parentLink] at h
  cases hl : lookupTask tasks a with
  | none => rw [hl] at h; exact absurd h (by simp)
  | some t =>
    rw [hl] at h
    have h2 : t.parentId = some b := h
    exact mem_parentIdsFinset (lookupTask_mem hl) h2

theorem circGo_none {tasks : List Task} {x : Int} :
    ∀ (fuel : Nat) (visited : Finset Int),
      circGo tasks x fuel none visited = some false := by
  intro fuel visited
  cases fuel <;> rfl

theorem circGo_total {tasks : List Task} {x : Int} {S : Finset Int}
    (hclosed : ∀ a b, Step tasks a b → b ∈ S) :
    ∀ (fuel : Nat) (c : Int) (visited : Finset Int),
      c ∈ S → visited ⊆ S → S.card < visited.card + fuel →
      ∃ b, circGo tasks x fuel (some c) visited = some b := by
  intro fuel
  induction fuel with
  | zero =>
    intro c visited _ hv hcard
    rw [Nat.add_zero] at hcard
    exact absurd (lt_of_lt_of_le hcard (Finset.card_le_card hv)) (lt_irrefl _)
  | succ n ih =>
    intro c visited hc hv hcard
    rw [circGo]
    by_cases hcx : c = x
    · rw [if_pos hcx]; exact ⟨true, rfl⟩
    · rw [if_neg hcx]
      by_cases hcv : c ∈ visited
      · rw [if_pos hcv]; exact ⟨false, rfl⟩
      · rw [if_neg hcv]
        cases hp : parentLink tasks c with
        | none => exact ⟨false, circGo_none _ _⟩
        | some d =>
          refine ih d (insert c visited) (hclosed c d hp)
            (Finset.insert_subset_iff.mpr ⟨hc, hv⟩) ?_
          rw [Finset.card_insert_of_not_mem hcv]
          omega

theorem wccd_total : ∀ (tasks : List Task) (x p : Option Int),
    ∃ b, wouldCreateCircularDependency (defaultFuel tasks) tasks x p = some b := by
  intro tasks x p
  cases x with
  | none => exact ⟨false, rfl⟩
  | some xv =>
    cases p with
    | none => exact ⟨false, rfl⟩
    | some pv =>
      rw [wouldCreateCircularDependency]
      by_cases h0 : pv = 0 ∨ xv = 0
      · rw [if_pos h0]; exact ⟨false, rfl⟩
      · rw [if_neg h0]
        by_cases hxp : xv = pv
        · rw [if_pos hxp]; exact ⟨true, rfl⟩
        · rw [if_neg hxp]
          refine circGo_total (S := insert pv (parentIdsFinset tasks))
            (fun a b hs => Finset.mem_insert_of_mem (step_mem_parentIdsFinset hs))
            (defaultFuel tasks) pv ∅ (Finset.mem_insert_self _ _) (by simp) ?_
          have h1 := Finset.card_insert_le pv (parentIdsFinset tasks)
          have h2 := @parentIdsFinset_card tasks
          rw [defaultFuel, Finset.card_empty]
          omega

/-! ### Termination of the traversals and the propagator on acyclic snapshots -/

theorem ancGo_none {tasks : List Task} :
    ∀ fuel : Nat, ancGo tasks fuel none = some [] := by
  intro fuel
  cases fuel <;> rfl

theorem ancGo_total {tasks : List Task} (ha : Acyclic tasks) :
    ∀ (fuel : Nat) (c : Int) (F : Finset Int),
      c ∈ parentIdsFinset tasks → F ⊆ parentIdsFinset tasks →
      (∀ v ∈ F, Relation.TransGen (Step tasks) v c) →
      (parentIdsFinset tasks).card < F.card + fuel →
      ∃ l, ancGo tasks fuel (some c) = some l := by
  intro fuel
  induction fuel with
  | zero =>
    intro c F _ hF _ hcard
    rw [Nat.add_zero] at hcard
    exact absurd (lt_of_lt_of_le hcard (Finset.card_le_card hF)) (lt_irrefl _)
  | succ n ih =>
    intro c F hc hF hinv hcard
    rw [ancGo]
    cases hp : parentLink tasks c with
    | none => exact ⟨[c], by rw [ancGo_none]; rfl⟩
    | some d =>
      have hcF : c ∉ F := fun h2 => ha c (hinv c h2)
      have hinv2 : ∀ v ∈ insert c F, Relation.TransGen (Step tasks) v d := by
        intro v hv
        rcases Finset.mem_insert.mp hv with rfl | hv
        · exact Relation.TransGen.single hp
        · exact Relation.TransGen.tail (hinv v hv) hp
      have hcard2 : (parentIdsFinset tasks).card < (insert c F).card + n := by
        rw [Finset.card_insert_of_not_mem hcF]
        omega
      rcases ih d (insert c F) (step_mem_parentIdsFinset hp)
        (Finset.insert_subset_iff.mpr ⟨hc, hF⟩) hinv2 hcard2 with ⟨l, hl⟩
      exact ⟨c :: l, by rw [hl]; rfl⟩

theorem getTaskAncestors_total {tasks : List Task} (ha : Acyclic tasks) (i : Int) :
    ∃ l, getTaskAncestors (defaultFuel tasks) tasks i = some l := by
  rw [getTaskAncestors]
  cases hp : parentLink tasks i with
  | none => exact ⟨[], ancGo_none _⟩
  | some c =>
    refine ancGo_total ha (defaultFuel tasks) c ∅ (step_mem_parentIdsFinset hp)
      (by simp) (by simp) ?_
    have h2 := @parentIdsFinset_card tasks
    rw [defaultFuel, Finset.card_empty]
    omega

theorem desc_total {tasks : List Task} (ha : Acyclic tasks) (hu : UniqueIds tasks)
    {S : Finset Int} (hS : ∀ t ∈ tasks, t.id ∈ S) :
    ∀ (fuel : Nat) (i : Int) (F : Finset Int),
      i ∈ S → F ⊆ S →
      (∀ v ∈ F, Relation.TransGen (Step tasks) i v) →
      S.card < F.card + fuel →
      ∃ l, getTaskDescendants tasks fuel i = some l := by
  intro fuel
  induction fuel with
  | zero =>
    intro i F _ hF _ hcard
    rw [Nat.add_zero] at hcard
    exact absurd (lt_of_lt_of_le hcard (Finset.card_le_card hF)) (lt_irrefl _)
  | succ n ih =>
    intro i F hi hF hinv hcard
    rw [getTaskDescendants]
    have hchild : ∀ c ∈ getTaskChildren tasks i,
        ∃ d, getTaskDescendants tasks n c.id = some d := by
      intro c hc
      rcases mem_getTaskChildren.mp hc with ⟨hcm, hcp⟩
      have hstep : Step tasks c.id i := by
        rw [Step, parentLink, lookupTask_of_mem hu hcm rfl]
        exact hcp
      have hiF : i ∉ F := fun h2 => ha i (hinv i h2)
      have hinv2 : ∀ v ∈ insert i F, Relation.TransGen (Step tasks) c.id v := by
        intro v hv
        rcases Finset.mem_insert.mp hv with rfl | hv
        · exact Relation.TransGen.single hstep
        · exact Relation.TransGen.head hstep (hinv v hv)
      have hcard2 : S.card < (insert i F).card + n := by
        rw [Finset.card_insert_of_not_mem hiF]
        omega
      exact ih c.id (insert i F) (hS c hcm)
        (Finset.insert_subset_iff.mpr ⟨hi, hF⟩) hinv2 hcard2
    have hfold : ∀ cs : List Task,
        (∀ c ∈ cs, ∃ d, getTaskDescendants tasks n c.id = some d) →
        ∃ l, (cs.foldr (fun c acc => do
          let d ← getTaskDescendants tasks n c.id
          let rest ← acc
          pure (c.id :: (d ++ rest))) (some [])) = some l := by
      intro cs
      induction cs with
      | nil => intro _; exact ⟨[], rfl⟩
      | cons c cs2 ih2 =>
        intro hcs
        rcases hcs c (List.mem_cons_self _ _) with ⟨d, hd⟩
        rcases ih2 (fun c2 h2 => hcs c2 (List.mem_cons_of_mem _ h2)) with ⟨l2, hl2⟩
        exact ⟨c.id :: (d ++ l2), by rw [List.foldr_cons, hd, hl2]; rfl⟩
    exact hfold _ hchild

theorem getTaskDescendants_total {tasks : List Task} (ha : Acyclic tasks)
    (hu : UniqueIds tasks) (i : Int) :
    ∃ l, getTaskDescendants tasks (defaultFuel tasks) i = some l := by
  refine desc_total ha hu (S := insert i (tasks.map Task.id).toFinset) ?_
    (defaultFuel tasks) i ∅ (Finset.mem_insert_self _ _) (by simp) (by simp) ?_
  · intro t ht
    exact Finset.mem_insert_of_mem (List.mem_toFinset.mpr (List.mem_map_of_mem _ ht))
  · have h1 := Finset.card_insert_le i (tasks.map Task.id).toFinset
    have h2 := List.toFinset_card_le (tasks.map Task.id)
    rw [defaultFuel, Finset.card_empty]
    simp only [List.length_map] at h2
    omega

theorem getInvalidParentIds_total {tasks : List Task} (ha : Acyclic tasks)
    (hu : UniqueIds tasks) (x : Option Int) :
    ∃ l, getInvalidParentIds (defaultFuel tasks) tasks x = some l := by
  cases x with
  | none => exact ⟨[], rfl⟩
  | some xv =>
    rw [getInvalidParentIds]
    by_cases h0 : xv = 0
    · rw [if_pos h0]; exact ⟨[], rfl⟩
    · rw [if_neg h0]
      rcases getTaskDescendants_total ha hu xv with ⟨l, hl⟩
      exact ⟨xv :: l, by rw [hl]; rfl⟩

theorem upcNext_snd {tasks : List Task} {p : Int} {us : List StatusUpdate} {gp : Int}
    (h : (upcNext tasks p us).2 = some gp) : Step tasks p gp := by
  cases hlk : lookupTask tasks p with
  | none => rw [upcNext_none hlk] at h; exact absurd h (by simp)
  | some parent =>
    by_cases hch : getTaskChildren tasks p = []
    · rw [upcNext_halt_no_children hch] at h; exact absurd h (by simp)
    · by_cases hall : ∀ c ∈ getTaskChildren tasks p,
        effStatus us c = "DONE" ∨ effStatus us c = "COMPLETE"
      · rw [upcNext_qualify hlk hch hall] at h
        have h2 : (match parent.parentId with
            | some gp2 => if gp2 ≠ 0 then some gp2 else none
            | none => none) = some gp := h
        cases hpp : parent.parentId with
        | none => rw [hpp] at h2; exact absurd h2 (by simp)
        | some gp2 =>
          rw [hpp] at h2
          have h3 : (if gp2 ≠ 0 then some gp2 else none) = some gp := h2
          by_cases hg : gp2 = 0
          · rw [if_neg (by simp [hg])] at h3; exact absurd h3 (by simp)
          · rw [if_pos hg] at h3
            cases h3
            rw [Step, parentLink, hlk]
            exact hpp
      · push_neg at hall
        rcases hall with ⟨c, hc, hcs⟩
        rw [upcNext_halt_not_all hc (by
          intro hor
          rcases hor with h1 | h1
          · exact hcs.1 h1
          · exact hcs.2 h1)] at h
        exact absurd h (by simp)

theorem updNext_snd {tasks : List Task} {p : Int} {us : List StatusUpdate} {gp : Int}
    (h : (updNext tasks p us).2 = some gp) : Step tasks p gp := by
  cases hlk : lookupTask tasks p with
  | none =>
    rw [updNext_halt (by intro q hq; rw [hlk] at hq; exact absurd hq (by simp))] at h
    exact absurd h (by simp)
  | some parent =>
    by_cases hcur : orStored ((findUpd us p).map StatusUpdate.status) parent.status =
      "COMPLETE"
    · rw [updNext_complete hlk hcur] at h
      have h2 : (match parent.parentId with
          | some gp2 => if gp2 ≠ 0 then some gp2 else none
          | none => none) = some gp := h
      cases hpp : parent.parentId with
      | none => rw [hpp] at h2; exact absurd h2 (by simp)
      | some gp2 =>
        rw [hpp] at h2
        have h3 : (if gp2 ≠ 0 then some gp2 else none) = some gp := h2
        by_cases hg : gp2 = 0
        · rw [if_neg (by simp [hg])] at h3; exact absurd h3 (by simp)
        · rw [if_pos hg] at h3
          cases h3
          rw [Step, parentLink, hlk]
          exact hpp
    · rw [updNext_halt (by intro q hq; rw [hlk] at hq; cases hq; exact hcur)] at h
      exact absurd h (by simp)

theorem runUp_total {tasks : List Task} (ha : Acyclic tasks)
    (next : Int → List StatusUpdate → List StatusUpdate × Option Int)
    (hsnd : ∀ p us gp, (next p us).2 = some gp → Step tasks p gp) :
    ∀ (fuel : Nat) (p : Int) (F : Finset Int) (us : List StatusUpdate),
      p ∈ parentIdsFinset tasks → F ⊆ parentIdsFinset tasks →
      (∀ v ∈ F, Relation.TransGen (Step tasks) v p) →
      (parentIdsFinset tasks).card < F.card + fuel →
      ∃ r, runUp next fuel p us = some r := by
  intro fuel
  induction fuel with
  | zero =>
    intro p F us _ hF _ hcard
    rw [Nat.add_zero] at hcard
    exact absurd (lt_of_lt_of_le hcard (Finset.card_le_card hF)) (lt_irrefl _)
  | succ n ih =>
    intro p F us hp hF hinv hcard
    cases ho : (next p us).2 with
    | none => exact ⟨(next p us).1, runUp_succ_halt ho⟩
    | some gp =>
      have hstep := hsnd p us gp ho
      have hpF : p ∉ F := fun h2 => ha p (hinv p h2)
      rw [runUp_succ_rec ho]
      refine ih gp (insert p F) (next p us).1 (step_mem_parentIdsFinset hstep)
        (Finset.insert_subset_iff.mpr ⟨hp, hF⟩) ?_ ?_
      · intro v hv
        rcases Finset.mem_insert.mp hv with rfl | hv
        · exact Relation.TransGen.single hstep
        · exact Relation.TransGen.tail (hinv v hv) hstep
      · rw [Finset.card_insert_of_not_mem hpF]
        omega

theorem propagateUpwardsComplete_total {tasks : List Task} (ha : Acyclic tasks)
    {p : Int} (hp : p ∈ parentIdsFinset tasks) (us : List StatusUpdate) :
    ∃ r, propagateUpwardsComplete tasks (defaultFuel tasks) p us = some r := by
  refine runUp_total ha (upcNext tasks) (fun p2 us2 gp h => upcNext_snd h)
    (defaultFuel tasks) p ∅ us hp (by simp) (by simp) ?_
  have h2 := @parentIdsFinset_card tasks
  rw [defaultFuel, Finset.card_empty]
  omega

theorem propagateUpwardsDone_total {tasks : List Task} (ha : Acyclic tasks)
    {p : Int} (hp : p ∈ parentIdsFinset tasks) (us : List StatusUpdate) :
    ∃ r, propagateUpwardsDone tasks (defaultFuel tasks) p us = some r := by
  refine runUp_total ha (updNext tasks) (fun p2 us2 gp h => updNext_snd h)
    (defaultFuel tasks) p ∅ us hp (by simp) (by simp) ?_
  have h2 := @parentIdsFinset_card tasks
  rw [defaultFuel, Finset.card_empty]
  omega

theorem ifMatch_total {f : Int → List StatusUpdate → Option (List StatusUpdate)}
    {t : Task} {u : List StatusUpdate} {c : Prop} [Decidable c]
    (hf : ∀ p, t.parentId = some p → p ≠ 0 → ∃ r, f p u = some r) :
    ∃ r, (if c then
            (match t.parentId with
             | some p => if p ≠ 0 then f p u else some u
             | none => some u)
          else some u) = some r := by
  by_cases hc : c
  · rw [if_pos hc]
    cases hpp : t.parentId with
    | none => exact ⟨u, rfl⟩
    | some p =>
      by_cases hp : p = 0
      · subst hp
        exact ⟨u, rfl⟩
      · rcases hf p hpp hp with ⟨r, hr⟩
        refine ⟨r, ?_⟩
        have hgoal : (if p ≠ 0 then f p u else some u) = some r := by
          rw [if_pos hp, hr]
        exact hgoal
  · rw [if_neg hc]; exact ⟨u, rfl⟩

theorem psc_total {tasks : List Task} (ha : Acyclic tasks) (i : Int) (s : String) :
    ∃ us, propagateStatusChange (defaultFuel tasks) tasks i s = some us := by
  cases hlk : lookupTask tasks i with
  | none => exact ⟨[], psc_nil hlk⟩
  | some t =>
    have hft : ∀ p, t.parentId = some p → p ≠ 0 → p ∈ parentIdsFinset tasks :=
      fun p hpp _ => mem_parentIdsFinset (lookupTask_mem hlk) hpp
    simp only [propagateStatusChange, hlk]
    generalize (if (decide (s = "DONE") && (!(getTaskChildren tasks i).isEmpty) &&
      ((getTaskChildren tasks i).all fun c => decide (c.status = "COMPLETE")) : Bool)
        then "COMPLETE" else s) = s1
    obtain ⟨us1, h1⟩ := ifMatch_total (t := t)
      (f := propagateUpwardsComplete tasks (defaultFuel tasks))
      (c := (s = "DONE")) (u := [⟨i, s1⟩])
      (fun p hpp hp => propagateUpwardsComplete_total ha (hft p hpp hp) _)
    rw [h1, Option.some_bind]
    obtain ⟨us2, h2⟩ := ifMatch_total (t := t)
      (f := propagateUpwardsComplete tasks (defaultFuel tasks))
      (c := (s1 = "COMPLETE")) (u := us1)
      (fun p hpp hp => propagateUpwardsComplete_total ha (hft p hpp hp) _)
    rw [h2, Option.some_bind]
    obtain ⟨us3, h3⟩ := ifMatch_total (t := t)
      (f := propagateUpwardsDone tasks (defaultFuel tasks))
      (c := (s1 = "IN PROGRESS")) (u := us2)
      (fun p hpp hp => propagateUpwardsDone_total ha (hft p hpp hp) _)
    rw [h3]
    exact ⟨us3, rfl⟩

/-- C8 (amended): `wouldCreateCircularDependency` terminates on EVERY
snapshot, cyclic ones included (its visited set bounds the walk by the
number of distinct parent ids).  The unguarded traversals and the
propagator terminate on every ACYCLIC snapshot (descendants and invalid-
parent candidates additionally under unique ids, since duplicate-id
snapshots can hand the recursion a child cycle the id map cannot see):
`defaultFuel`, two more than the snapshot length, always suffices.  On
snapshots with a pre-existing parent cycle the other functions can loop
forever (see the counterexample). -/
theorem c8_termination_amended :
    (∀ (tasks : List Task) (taskId parentId : Option Int),
      ∃ b, wouldCreateCircularDependency (defaultFuel tasks) tasks taskId
        parentId = some b) ∧
    (∀ (tasks : List Task) (i : Int), Acyclic tasks →
      ∃ l, getTaskAncestors (defaultFuel tasks) tasks i = some l) ∧
    (∀ (tasks : List Task) (i : Int), Acyclic tasks → UniqueIds tasks →
      ∃ l, getTaskDescendants tasks (defaultFuel tasks) i = some l) ∧
    (∀ (tasks : List Task) (x : Option Int), Acyclic tasks → UniqueIds tasks →
      ∃ l, getInvalidParentIds (defaultFuel tasks) tasks x = some l) ∧
    (∀ (tasks : List Task) (i : Int) (s : String), Acyclic tasks →
      ∃ us, propagateStatusChange (defaultFuel tasks) tasks i s = some us) :=
  ⟨wccd_total, fun _ i ha => getTaskAncestors_total ha i,
   fun _ i ha hu => getTaskDescendants_total ha hu i,
   fun _ x ha hu => getInvalidParentIds_total ha hu x,
   fun _ i s ha => psc_total ha i s⟩

/-- Witness for C8 (amended) on the two-task chain: the detector and the
propagator both complete within the default fuel. -/
theorem c8_witness :
    (∃ b, wouldCreateCircularDependency (defaultFuel chainPair) chainPair
      (some 1) (some 2) = some b) ∧
    (∃ us, propagateStatusChange (defaultFuel chainPair) chainPair 2 "DONE" =
      some us) :=
  ⟨c8_termination_amended.1 chainPair (some 1) (some 2),
   c8_termination_amended.2.2.2.2 chainPair 2 "DONE" acyclic_chainPair⟩

end TMS
